import Mathlib

/-!
Verification of the usnic provider completion-queue module
(`src/prov/usnic/src/usdf_cq.c`) against its natural-language
specification.  The C code is shallowly embedded: machine integers are
`Nat` with explicit wrap-around where the C arithmetic is unsigned,
external collaborators (the hardware poll primitive, the domain progress
sweep, the allocator, `usd_destroy_cq`) are parameters of the embedded
functions, and the CQ state mutated through pointers is passed
explicitly.
-/

/-- 2^64, the modulus of `size_t` arithmetic on the target platform. -/
def W64 : Nat := 2 ^ 64

/-- Unsigned 64-bit addition (`size_t` `+=`). -/
def addWrap (a b : Nat) : Nat := (a + b) % W64

/-- Unsigned 64-bit subtraction (`size_t` `-=`). -/
def subWrap (a b : Nat) : Nat := (a + (W64 - b % W64)) % W64

/-- Completion status codes carried in `usd_completion.uc_status`
(`USD_COMPSTAT_*`); `success` is the zero value the C code tests with
`uc_status == 0`. -/
inductive CompStatus where
  | success
  | errCrc
  | errTrunc
  | errTimeout
  | errInternal
deriving DecidableEq, Repr

/-- Completion type carried in `usd_completion.uc_type`
(`USD_COMPTYPE_SEND` / `USD_COMPTYPE_RECV`); `other n` stands for any
unknown discriminant hitting the `default` branch. -/
inductive CompType where
  | send
  | recv
  | other (n : Int)
deriving DecidableEq, Repr

/-- A raw completion record (`struct usd_completion`).  Pointers are
modelled as `Nat` handles.  `uc_msgPrefixMode` flattens the pointer chase
`src->uc_qp->uq_context->ep_mode & FI_MSG_PREFIX` performed by
`usdf_cq_adjust_len`: it is the one bit of endpoint state the module
reads through `uc_qp`. -/
structure UsdCompletion where
  uc_context : Nat
  uc_bytes : Nat
  uc_status : CompStatus
  uc_type : CompType
  uc_msgPrefixMode : Bool
deriving DecidableEq, Repr

/-- Modelled from the spec: the completion flag bits (`FI_MSG`,
`FI_SEND`, `FI_RECV` from the public fabric header, which is outside the
excerpt).  The spec only requires them to be distinct bits, so distinct
powers of two are used. -/
def FI_MSG : Nat := 2

/-- Modelled from the spec: see `FI_MSG`. -/
def FI_SEND : Nat := 1024

/-- Modelled from the spec: see `FI_MSG`. -/
def FI_RECV : Nat := 2048

/-- `usdf_cqe_to_flags`: classify a completion; an unknown type logs and
yields empty flags (lenient fallback). -/
def usdf_cqe_to_flags (comp : UsdCompletion) : Nat :=
  match comp.uc_type with
  | CompType.send => FI_MSG + FI_SEND
  | CompType.recv => FI_MSG + FI_RECV
  | CompType.other _ => 0

/-- `usdf_cq_adjust_len`: fix up a completion length.
`hdrSize` stands for `sizeof(struct usd_udp_hdr)` and `hdrBufEntry` for
`USDF_HDR_BUF_ENTRY`; both live in headers outside the excerpt, so they
are parameters.  The arithmetic is `size_t`, hence the wrap-around
helpers. -/
def usdf_cq_adjust_len (hdrSize hdrBufEntry : Nat) (src : UsdCompletion)
    (len : Nat) : Nat :=
  if src.uc_type = CompType.recv then
    if src.uc_msgPrefixMode then addWrap len (subWrap hdrBufEntry hdrSize)
    else subWrap len hdrSize
  else
    if src.uc_msgPrefixMode then addWrap len hdrBufEntry
    else len

/-- The CQ entry formats (`enum fi_cq_format`) the module switches on;
`tagged` and `unspec` both fall into the `default` branches. -/
inductive CqFormat where
  | unspec
  | context
  | msg
  | data
  | tagged
deriving DecidableEq, Repr

/-- One formatted output record: `struct fi_cq_entry`,
`struct fi_cq_msg_entry` or `struct fi_cq_data_entry`. -/
inductive CqOutEntry where
  | ctx (op_context : Nat)
  | msg (op_context : Nat) (flags : Nat) (len : Nat)
  | data (op_context : Nat) (flags : Nat) (len : Nat) (buf : Nat) (dat : Nat)
deriving DecidableEq, Repr

/-- The `len` field of a length-carrying output record. -/
def CqOutEntry.lenField : CqOutEntry → Option Nat
  | CqOutEntry.ctx _ => none
  | CqOutEntry.msg _ _ l => some l
  | CqOutEntry.data _ _ l _ _ => some l

/-- The `op_context` field of an output record. -/
def CqOutEntry.ctxField : CqOutEntry → Nat
  | CqOutEntry.ctx c => c
  | CqOutEntry.msg c _ _ => c
  | CqOutEntry.data c _ _ _ _ => c

/-- `usdf_cq_copy_cq_entry`: format one raw completion into the
requested layout; `none` models the `-FI_EOPNOTSUPP` return of the
`default` branch (which writes nothing). -/
def usdf_cq_copy_cq_entry (hdrSize hdrBufEntry : Nat)
    (src : UsdCompletion) (format : CqFormat) : Option CqOutEntry :=
  match format with
  | CqFormat.context => some (CqOutEntry.ctx src.uc_context)
  | CqFormat.msg =>
      some (CqOutEntry.msg src.uc_context (usdf_cqe_to_flags src)
        (usdf_cq_adjust_len hdrSize hdrBufEntry src src.uc_bytes))
  | CqFormat.data =>
      some (CqOutEntry.data src.uc_context (usdf_cqe_to_flags src)
        (usdf_cq_adjust_len hdrSize hdrBufEntry src src.uc_bytes) 0 0)
  | _ => none

/-- One normalized completion record in the soft ring
(`struct usdf_cq_soft_entry`). -/
structure SoftEntry where
  cse_context : Nat
  cse_flags : Nat
  cse_len : Nat
  cse_buf : Nat
  cse_data : Nat
  cse_prov_errno : Int
deriving DecidableEq, Repr, Inhabited

/-- The ring's last-operation discriminator
(`USDF_SOFT_CQ_READ` / `USDF_SOFT_CQ_WRITE`). -/
inductive SoftCqOp where
  | read
  | write
deriving DecidableEq, Repr

/-- The soft side of the CQ union: the entry array `cq_comps .. cq_end`
(capacity = `comps.length`) with `cq_head` / `cq_tail` as indices into it
and the last-operation discriminator. -/
structure SoftCqState where
  comps : List SoftEntry
  head : Nat
  tail : Nat
  last_op : SoftCqOp
deriving DecidableEq, Repr

/-- Pointer increment with wrap: `entry++; if (entry != cq_end) ... else
entry = cq_comps`. -/
def ringNext (cap i : Nat) : Nat := if i + 1 = cap then 0 else i + 1

/-- A freshly allocated ring of `n` slots: `calloc` zero-fills the entry
array and `usdf_cq_make_soft` points head and tail at the first slot.
Modelled from the spec for the discriminator's initial value: the header
holding the last-op enum is outside the excerpt; the spec requires a
fresh ring to be empty (head = tail disambiguated as empty), so the
zero-initialized discriminator is the read value. -/
def freshRing (n : Nat) : SoftCqState :=
  ⟨List.replicate n ⟨0, 0, 0, 0, 0, 0⟩, 0, 0, SoftCqOp.read⟩

/-- `usdf_cq_post_soft`: push one normalized completion onto the ring;
a full ring (head = tail after a write) silently drops the entry.  Only
the context, length and provider-errno fields of the slot are assigned. -/
def usdf_cq_post_soft (s : SoftCqState) (context len : Nat)
    (prov_errno : Int) : SoftCqState :=
  if s.head = s.tail ∧ s.last_op = SoftCqOp.write then s
  else
    let old := s.comps.getD s.head default
    let e := { old with cse_context := context, cse_len := len,
                        cse_prov_errno := prov_errno }
    { s with comps := s.comps.set s.head e,
             head := ringNext s.comps.length s.head,
             last_op := SoftCqOp.write }

/-- A soft-mode CQ: the CQ-level raw-completion slot `cq_comp` (the
hard-mode sticky slot, still present in the struct) plus the ring. -/
structure SoftCq where
  cq_comp : UsdCompletion
  ring : SoftCqState
deriving DecidableEq, Repr

/-- `usdf_progress_hard_cq`: drain one hardware queue into the ring.
`polls` is the list of completions `usd_poll_cq` yields before reporting
`-EAGAIN` (each recursive step consumes one successful poll; the empty
list is the `-EAGAIN` that ends the `do/while`).  Faithful to the
source: the completion polled into the local variable `comp` is never
read back — the entry fields are copied from `cq->cq_comp`, and
`cse_prov_errno` is not assigned at all (the slot keeps its previous
value).  A full ring returns from the whole function, dropping the rest
of the drain. -/
def usdf_progress_hard_cq (cq : SoftCq) (polls : List UsdCompletion) :
    SoftCq :=
  match polls with
  | [] => cq
  | _comp :: rest =>
      let s := cq.ring
      if s.head = s.tail ∧ s.last_op = SoftCqOp.write then cq
      else
        let old := s.comps.getD s.head default
        let e := { old with cse_context := cq.cq_comp.uc_context,
                            cse_flags := 0,
                            cse_len := cq.cq_comp.uc_bytes,
                            cse_buf := 0, cse_data := 0 }
        usdf_progress_hard_cq
          { cq with ring := { s with comps := s.comps.set s.head e,
                                     head := ringNext s.comps.length s.head,
                                     last_op := SoftCqOp.write } } rest

/-- Modelled from the spec: error codes from the errno header, which is
outside the excerpt; the spec only requires success to be zero and each
error condition to carry a distinct positive code. -/
def FI_SUCCESS : Int := 0

/-- Modelled from the spec: see `FI_SUCCESS`. -/
def FI_EIO : Int := 5

/-- Modelled from the spec: see `FI_SUCCESS`. -/
def FI_ECRC : Int := 264

/-- Modelled from the spec: see `FI_SUCCESS`. -/
def FI_ETRUNC : Int := 265

/-- Modelled from the spec: see `FI_SUCCESS`. -/
def FI_ETIMEDOUT : Int := 110

/-- Modelled from the spec: see `FI_SUCCESS`. -/
def FI_EOTHER : Int := 256

/-- The `switch (cq->cq_comp.uc_status)` of `usdf_cq_readerr` mapping a
completion status to the provider errno reported to the application. -/
def provErrnoOfStatus : CompStatus → Int
  | CompStatus.success => FI_SUCCESS
  | CompStatus.errCrc => FI_ECRC
  | CompStatus.errTrunc => FI_ETRUNC
  | CompStatus.errTimeout => FI_ETIMEDOUT
  | CompStatus.errInternal => FI_EOTHER

/-- The error detail written to the caller's `struct fi_cq_err_entry`. -/
structure CqErrEntry where
  op_context : Nat
  flags : Nat
  err : Int
  prov_errno : Int
deriving DecidableEq, Repr

/-- Result of an error-read: `entryRead e` is the `return 1` after
writing `*entry`; `eagain` is `return -FI_EAGAIN`. -/
inductive ReaderrResult where
  | entryRead (e : CqErrEntry)
  | eagain
deriving DecidableEq, Repr

/-- `usdf_cq_readerr` (hard mode): `-FI_EAGAIN` when the sticky slot
holds no error, otherwise report the buffered detail and clear the
sticky status. -/
def usdf_cq_readerr (comp : UsdCompletion) : ReaderrResult × UsdCompletion :=
  if comp.uc_status = CompStatus.success then (ReaderrResult.eagain, comp)
  else
    (ReaderrResult.entryRead
       ⟨comp.uc_context, 0, FI_EIO, provErrnoOfStatus comp.uc_status⟩,
     { comp with uc_status := CompStatus.success })

/-- `usdf_cq_readerr_soft`: faithful to the source, which performs no
empty-ring or error-present check — it unconditionally reads the tail
slot, returns 1 and advances the tail (without updating the last-op
discriminator). -/
def usdf_cq_readerr_soft (s : SoftCqState) : ReaderrResult × SoftCqState :=
  let t := s.comps.getD s.tail default
  (ReaderrResult.entryRead ⟨t.cse_context, 0, FI_EIO, t.cse_prov_errno⟩,
   { s with tail := ringNext s.comps.length s.tail })

/-- `usdf_cq_copy_soft_entry`: format one stored soft entry into the
requested layout; `none` models the `-FI_EOPNOTSUPP` default branch. -/
def usdf_cq_copy_soft_entry (src : SoftEntry) (format : CqFormat) :
    Option CqOutEntry :=
  match format with
  | CqFormat.context => some (CqOutEntry.ctx src.cse_context)
  | CqFormat.msg =>
      some (CqOutEntry.msg src.cse_context src.cse_flags src.cse_len)
  | CqFormat.data =>
      some (CqOutEntry.data src.cse_context src.cse_flags src.cse_len
        src.cse_buf src.cse_data)
  | _ => none

/-- How the ring-scanning `while` of the soft read paths ended:
`done` is the normal exit (output buffer full or ring empty, or `break`
after an error entry once something was collected — the caller tells
these apart from `recs`); `errorHit` means the loop stopped at an entry
with a positive provider errno; `copyFail` is the
`usdf_cq_copy_soft_entry` failure return. -/
inductive SoftDrainStop where
  | done
  | errorHit
  | copyFail
deriving DecidableEq, Repr

/-- Result of the ring-scanning loop: records produced in order, the
final local `tail`, the final discriminator, and how it stopped. -/
structure SoftDrainOut where
  recs : List CqOutEntry
  tail : Nat
  last_op : SoftCqOp
  stop : SoftDrainStop
deriving DecidableEq, Repr

/-- The ring-scanning `while (entry < last)` shared (textually
duplicated in the source) by `usdf_cq_read_common_soft` and the inner
loop of `usdf_cq_sread_common_soft`.  `s.head`/`s.comps` are the ring,
`s.last_op` the discriminator the loop also mutates, `t` the local
`tail` cursor, `remaining` the free output-entry slots left
(`(last - entry) / entry_len`). -/
def softDrainLoop (format : CqFormat) (s : SoftCqState) (t : Nat) :
    (remaining : Nat) → SoftDrainOut
  | 0 => ⟨[], t, s.last_op, SoftDrainStop.done⟩
  | r + 1 =>
    if t = s.head ∧ s.last_op = SoftCqOp.read then
      ⟨[], t, s.last_op, SoftDrainStop.done⟩
    else
      let e := s.comps.getD t default
      if 0 < e.cse_prov_errno then ⟨[], t, s.last_op, SoftDrainStop.errorHit⟩
      else
        match usdf_cq_copy_soft_entry e format with
        | none => ⟨[], t, s.last_op, SoftDrainStop.copyFail⟩
        | some rec =>
            let out := softDrainLoop format { s with last_op := SoftCqOp.read }
              (ringNext s.comps.length t) r
            ⟨rec :: out.recs, out.tail, out.last_op, out.stop⟩

/-- Result of a (blocking or non-blocking) CQ read call.  `entries l`
is a positive return of `l.length` filled entries; `zero` is a literal
`return 0`. -/
inductive ReadResult where
  | entries (l : List CqOutEntry)
  | zero
  | eagain
  | eavail
  | eopnotsupp
deriving DecidableEq, Repr

/-- `usdf_cq_read_common_soft`: non-blocking soft-mode read.  `sweep`
is the external `usdf_domain_progress` collaborator, applied to the
ring (it may push entries via the hardware-queue progress functions). -/
def usdf_cq_read_common_soft (sweep : SoftCqState → SoftCqState)
    (cq : SoftCq) (count : Nat) (format : CqFormat) :
    ReadResult × SoftCq :=
  if cq.cq_comp.uc_status ≠ CompStatus.success then (ReadResult.eavail, cq)
  else
    let s := sweep cq.ring
    match format with
    | CqFormat.context | CqFormat.msg | CqFormat.data =>
      let out := softDrainLoop format s s.tail count
      match out.stop with
      | SoftDrainStop.copyFail =>
          (ReadResult.eopnotsupp,
           { cq with ring := { s with last_op := out.last_op } })
      | SoftDrainStop.errorHit =>
          if out.recs = [] then (ReadResult.eavail, { cq with ring := s })
          else
            (ReadResult.entries out.recs,
             { cq with ring := { s with tail := out.tail,
                                        last_op := out.last_op } })
      | SoftDrainStop.done =>
          if out.recs = [] then
            (ReadResult.eagain,
             { cq with ring := { s with tail := out.tail,
                                        last_op := out.last_op } })
          else
            (ReadResult.entries out.recs,
             { cq with ring := { s with tail := out.tail,
                                        last_op := out.last_op } })
    | _ => (ReadResult.eopnotsupp, { cq with ring := s })

/-- Result of a blocking read in the trace-driven model: `ret r` means
the function returned `r`; `outOfTrace` means the supplied finite trace
of external events ended while the call was still waiting (the call
performs no further observable action within the trace). -/
inductive SreadOutcome where
  | ret (r : ReadResult)
  | outOfTrace
deriving DecidableEq, Repr

/-- The backoff quantum recurrence of the blocking readers: the value
slept on the `k`-th empty attempt, starting at `initQ` and after each
sleep multiplied by `baseQ` while below `maxQ`, then clamped to
`maxQ`. -/
def sleepQuantum (initQ baseQ maxQ : Nat) : Nat → Nat
  | 0 => initQ
  | k + 1 =>
      min (if sleepQuantum initQ baseQ maxQ k < maxQ then
             sleepQuantum initQ baseQ maxQ k * baseQ
           else sleepQuantum initQ baseQ maxQ k) maxQ

/-- The `while (1)` of `usdf_cq_sread_common_soft`.  One outer
iteration consumes one element of `sweeps` (the successive effects of
the external `usdf_domain_progress` calls on the ring); `time_spent`
and `sleep_q` are the microsecond counters; `sleeps` accumulates the
`usleep` durations performed, in order.  Returns the outcome, the final
CQ state, and the sleeps. -/
def usdf_cq_sread_soft_loop (baseQ maxQ : Nat) (format : CqFormat)
    (timeout_ms : Int) (count : Nat) (cq : SoftCq)
    (time_spent sleep_q : Nat) (sleeps : List Nat) :
    (sweeps : List (SoftCqState → SoftCqState)) →
      SreadOutcome × SoftCq × List Nat
  | [] => (SreadOutcome.outOfTrace, cq, sleeps)
  | f :: rest =>
    let s := f cq.ring
    let out := softDrainLoop format s s.tail count
    match out.stop with
    | SoftDrainStop.copyFail =>
        (SreadOutcome.ret ReadResult.eopnotsupp,
         { cq with ring := { s with last_op := out.last_op } }, sleeps)
    | SoftDrainStop.errorHit =>
        if out.recs = [] then
          (SreadOutcome.ret ReadResult.eavail, { cq with ring := s }, sleeps)
        else
          (SreadOutcome.ret (ReadResult.entries out.recs),
           { cq with ring := { s with tail := out.tail,
                                      last_op := out.last_op } }, sleeps)
    | SoftDrainStop.done =>
        if out.recs = [] then
          if 0 ≤ timeout_ms ∧ 1000 * timeout_ms ≤ (time_spent : Int) then
            (SreadOutcome.ret ReadResult.eagain, { cq with ring := s }, sleeps)
          else
            usdf_cq_sread_soft_loop baseQ maxQ format timeout_ms count
              { cq with ring := s } (time_spent + sleep_q)
              (min (if sleep_q < maxQ then sleep_q * baseQ else sleep_q) maxQ)
              (sleeps ++ [sleep_q]) rest
        else
          (SreadOutcome.ret (ReadResult.entries out.recs),
           { cq with ring := { s with tail := out.tail,
                                      last_op := out.last_op } }, sleeps)

/-- `usdf_cq_sread_common_soft`: blocking soft-mode read.  The format
is validated before the outer loop; there is no sticky-slot check on
this path. -/
def usdf_cq_sread_common_soft (initQ baseQ maxQ : Nat) (format : CqFormat)
    (timeout_ms : Int) (count : Nat) (cq : SoftCq)
    (sweeps : List (SoftCqState → SoftCqState)) :
    SreadOutcome × SoftCq × List Nat :=
  match format with
  | CqFormat.context | CqFormat.msg | CqFormat.data =>
      usdf_cq_sread_soft_loop baseQ maxQ format timeout_ms count cq 0 initQ
        [] sweeps
  | _ => (SreadOutcome.ret ReadResult.eopnotsupp, cq, [])

/-- Push a sequence of (context, length, provider-errno) completions
onto the ring in order via `usdf_cq_post_soft`, with no interleaved
reads. -/
def pushList (s : SoftCqState) : List (Nat × Nat × Int) → SoftCqState
  | [] => s
  | x :: xs => pushList (usdf_cq_post_soft s x.1 x.2.1 x.2.2) xs

/-- The Soft Entry that a push writes into a zero-initialized slot. -/
def mkSoftEntry (x : Nat × Nat × Int) : SoftEntry :=
  ⟨x.1, 0, x.2.1, 0, 0, x.2.2⟩

/-- The record `usdf_cq_copy_soft_entry` produces for a valid format. -/
def copyEntryD (format : CqFormat) (e : SoftEntry) : CqOutEntry :=
  (usdf_cq_copy_soft_entry e format).getD (CqOutEntry.ctx 0)

/-- Outcome of a hard-mode non-blocking read: the returned value and the
final contents of the CQ-level completion slot `cq_comp` (which
`usd_poll_cq` overwrites on every successful poll). -/
inductive HardReadOut where
  | ret (res : ReadResult) (cq_comp : UsdCompletion)
  | outOfPolls (collected : List CqOutEntry) (cq_comp : UsdCompletion)
deriving DecidableEq, Repr

/-- The `while (entry < last)` of `usdf_cq_read_common`.  `polls` is the
trace of `usd_poll_cq` outcomes (`none` is `-EAGAIN`); each iteration
consumes one.  `remaining` is `(last - entry) / entry_len`, `collected`
the entries already written to the caller's buffer. -/
def readHardLoop (hdrSize hdrBufEntry : Nat) (format : CqFormat)
    (cq_comp : UsdCompletion) (collected : List CqOutEntry) :
    Nat → List (Option UsdCompletion) → HardReadOut
  | 0, _ =>
      HardReadOut.ret
        (if collected = [] then ReadResult.zero
         else ReadResult.entries collected) cq_comp
  | _ + 1, [] => HardReadOut.outOfPolls collected cq_comp
  | _ + 1, none :: _ =>
      HardReadOut.ret
        (if collected = [] then ReadResult.eagain
         else ReadResult.entries collected) cq_comp
  | r + 1, some comp :: rest =>
      if comp.uc_status ≠ CompStatus.success then
        HardReadOut.ret
          (if collected = [] then ReadResult.eavail
           else ReadResult.entries collected) comp
      else
        match usdf_cq_copy_cq_entry hdrSize hdrBufEntry comp format with
        | none => HardReadOut.ret ReadResult.eopnotsupp comp
        | some rec =>
            readHardLoop hdrSize hdrBufEntry format comp
              (collected ++ [rec]) r rest

/-- `usdf_cq_read_common`: non-blocking hard-mode read; `-FI_EAVAIL`
immediately when the sticky slot holds an error, `return 0` for an
unknown format. -/
def usdf_cq_read_common (hdrSize hdrBufEntry : Nat)
    (cq_comp : UsdCompletion) (count : Nat) (format : CqFormat)
    (polls : List (Option UsdCompletion)) : HardReadOut :=
  if cq_comp.uc_status ≠ CompStatus.success then
    HardReadOut.ret ReadResult.eavail cq_comp
  else
    match format with
    | CqFormat.context | CqFormat.msg | CqFormat.data =>
        readHardLoop hdrSize hdrBufEntry format cq_comp [] count polls
    | _ => HardReadOut.ret ReadResult.zero cq_comp

/-- Result of a hard-mode blocking read: outcome, final sticky slot and
the `usleep` durations performed, in order. -/
structure SreadHardOut where
  out : SreadOutcome
  cq_comp : UsdCompletion
  sleeps : List Nat
deriving DecidableEq, Repr

/-- The `while (entry < last)` of `usdf_cq_sread_common`: like
`readHardLoop`, but an empty poll with nothing collected sleeps and
retries instead of breaking, until the microsecond budget of
`timeout_ms` is exceeded (a negative timeout never expires). -/
def sreadHardLoop (hdrSize hdrBufEntry baseQ maxQ : Nat)
    (format : CqFormat) (timeout_ms : Int) (cq_comp : UsdCompletion)
    (collected : List CqOutEntry) (remaining : Nat)
    (time_spent sleep_q : Nat) (sleeps : List Nat) :
    List (Option UsdCompletion) → SreadHardOut :=
  fun polls =>
  match remaining, polls with
  | 0, _ =>
      ⟨SreadOutcome.ret
         (if collected = [] then ReadResult.eagain
          else ReadResult.entries collected), cq_comp, sleeps⟩
  | _ + 1, [] => ⟨SreadOutcome.outOfTrace, cq_comp, sleeps⟩
  | r + 1, none :: rest =>
      if collected = [] then
        if 0 ≤ timeout_ms ∧ 1000 * timeout_ms ≤ (time_spent : Int) then
          ⟨SreadOutcome.ret ReadResult.eagain, cq_comp, sleeps⟩
        else
          sreadHardLoop hdrSize hdrBufEntry baseQ maxQ format timeout_ms
            cq_comp collected (r + 1) (time_spent + sleep_q)
            (min (if sleep_q < maxQ then sleep_q * baseQ else sleep_q) maxQ)
            (sleeps ++ [sleep_q]) rest
      else ⟨SreadOutcome.ret (ReadResult.entries collected), cq_comp, sleeps⟩
  | r + 1, some comp :: rest =>
      if comp.uc_status ≠ CompStatus.success then
        ⟨SreadOutcome.ret
           (if collected = [] then ReadResult.eavail
            else ReadResult.entries collected), comp, sleeps⟩
      else
        match usdf_cq_copy_cq_entry hdrSize hdrBufEntry comp format with
        | none => ⟨SreadOutcome.ret ReadResult.eopnotsupp, comp, sleeps⟩
        | some rec =>
            sreadHardLoop hdrSize hdrBufEntry baseQ maxQ format timeout_ms
              comp (collected ++ [rec]) r time_spent sleep_q sleeps rest

/-- `usdf_cq_sread_common`: blocking hard-mode read; `-FI_EAVAIL`
immediately when the sticky slot already holds an error, `return 0` for
an unknown format. -/
def usdf_cq_sread_common (hdrSize hdrBufEntry initQ baseQ maxQ : Nat)
    (format : CqFormat) (timeout_ms : Int) (cq_comp : UsdCompletion)
    (count : Nat) (polls : List (Option UsdCompletion)) : SreadHardOut :=
  if cq_comp.uc_status ≠ CompStatus.success then
    ⟨SreadOutcome.ret ReadResult.eavail, cq_comp, []⟩
  else
    match format with
    | CqFormat.context | CqFormat.msg | CqFormat.data =>
        sreadHardLoop hdrSize hdrBufEntry baseQ maxQ format timeout_ms
          cq_comp [] count 0 initQ [] polls
    | _ => ⟨SreadOutcome.ret ReadResult.zero, cq_comp, []⟩

/-- The record `usdf_cq_copy_cq_entry` produces for a valid format. -/
def copyCqEntryD (hdrSize hdrBufEntry : Nat) (format : CqFormat)
    (comp : UsdCompletion) : CqOutEntry :=
  (usdf_cq_copy_cq_entry hdrSize hdrBufEntry comp format).getD
    (CqOutEntry.ctx 0)

/-- The statically allocated per-format operation tables between which
the CQ's `cq_fid.ops` pointer is swapped; pointer identity against these
tables is how the code decides mode. -/
inductive OpsCq where
  | contextOps
  | contextSoftOps
  | msgOps
  | msgSoftOps
  | dataOps
  | dataSoftOps
deriving DecidableEq, Repr

/-- A hardware-queue binding (`struct usdf_cq_hard`): its reference
count and the underlying `usd_cq` handle.  The back-reference `cqh_cq`
and the progress pointer `cqh_progress` (always
`usdf_progress_hard_cq`) carry no state of their own and are implicit. -/
structure HcqBinding where
  cqh_refcnt : Nat
  cqh_ucq : Option Nat
deriving DecidableEq, Repr

/-- The soft side of the per-mode union: the binding list `cq_list` and
the entry array (`none` models `cq_comps == NULL`, the state after a
failed ring allocation). -/
structure SoftSide where
  cq_list : List HcqBinding
  cq_ring : Option SoftCqState
deriving DecidableEq, Repr

/-- The per-mode union `cq->c`.  Modelled from the spec for the union
layout (the struct lives in a header outside the excerpt): the design
notes describe it as "hard-mode fields and soft-mode fields sharing
storage", so writing one variant destroys the other — a tagged sum. -/
inductive CqUnion where
  | hard (cq_cq : Option Nat)
  | soft (s : SoftSide)
deriving DecidableEq, Repr

/-- Reading `cq->c.hard.cq_cq`; reading it while the soft variant is
active is the access the spec's design notes disallow, returned here as
`none`. -/
def hardHandle : CqUnion → Option Nat
  | CqUnion.hard h => h
  | CqUnion.soft _ => none

/-- Reading `cq->c.soft`; the dual accessor. -/
def softSide : CqUnion → SoftSide
  | CqUnion.soft s => s
  | CqUnion.hard _ => ⟨[], none⟩

/-- The CQ object fields the lifecycle operations read and write. -/
structure UsdfCq where
  cq_format : CqFormat
  cq_size : Nat
  cq_refcnt : Nat
  cq_ops : OpsCq
  c : CqUnion
deriving DecidableEq, Repr

/-- `usdf_cq_is_soft`: infer the mode by comparing the ops pointer with
the per-format soft table; an unknown format reports hard. -/
def usdf_cq_is_soft (cq : UsdfCq) : Bool :=
  match cq.cq_format with
  | CqFormat.context => cq.cq_ops == OpsCq.contextSoftOps
  | CqFormat.msg => cq.cq_ops == OpsCq.msgSoftOps
  | CqFormat.data => cq.cq_ops == OpsCq.dataSoftOps
  | _ => false

/-- Return code of `usdf_cq_make_soft`: 0 or `-FI_ENOMEM`. -/
inductive MakeSoftRet where
  | ok
  | enomem
deriving DecidableEq, Repr

/-- `usdf_cq_make_soft`.  `ringAlloc` / `hcqAlloc` are the outcomes of
the external allocator for the `calloc` of the entry array and the
`malloc` of the binding.  Faithful to the source: the hard handle is
saved, then the soft side of the union is initialized (`TAILQ_INIT`,
`cq_comps = calloc(...)`), trashing the hard side; only the
binding-allocation failure path restores the saved handle (`/* restore
*/`) — the ring-allocation failure path returns with the union left in
its trashed soft state. -/
def usdf_cq_make_soft (ringAlloc hcqAlloc : Bool) (cq : UsdfCq) :
    MakeSoftRet × UsdfCq :=
  let tables : Option (OpsCq × OpsCq) :=
    match cq.cq_format with
    | CqFormat.context => some (OpsCq.contextOps, OpsCq.contextSoftOps)
    | CqFormat.msg => some (OpsCq.msgOps, OpsCq.msgSoftOps)
    | CqFormat.data => some (OpsCq.dataOps, OpsCq.dataSoftOps)
    | _ => none
  match tables with
  | none => (MakeSoftRet.ok, cq)
  | some (hard_ops, soft_ops) =>
    if cq.cq_ops == hard_ops then
      let ucq := hardHandle cq.c
      if ringAlloc = false then
        (MakeSoftRet.enomem, { cq with c := CqUnion.soft ⟨[], none⟩ })
      else
        let ring := freshRing cq.cq_size
        match ucq with
        | some u =>
          if hcqAlloc = false then
            (MakeSoftRet.enomem, { cq with c := CqUnion.hard (some u) })
          else
            (MakeSoftRet.ok,
             { cq with
                 c := CqUnion.soft ⟨[⟨cq.cq_refcnt, some u⟩], some ring⟩,
                 cq_ops := soft_ops })
        | none =>
            (MakeSoftRet.ok,
             { cq with c := CqUnion.soft ⟨[], some ring⟩,
                       cq_ops := soft_ops })
    else (MakeSoftRet.ok, cq)

/-- Return code of `usdf_cq_close`. -/
inductive CloseRet where
  | ok
  | ebusy
  | destroyErr (e : Int)
deriving DecidableEq, Repr

/-- The `while (!TAILQ_EMPTY(...))` of the soft-mode close: `destroy`
is the external `usd_destroy_cq` (0 = success).  Returns the code, the
bindings still on the list, and the hardware-queue handles destroyed,
in order. -/
def usdf_cq_close_soft_loop (destroy : Nat → Int) :
    List HcqBinding → CloseRet × List HcqBinding × List Nat
  | [] => (CloseRet.ok, [], [])
  | hcq :: rest =>
    if 0 < hcq.cqh_refcnt then (CloseRet.ebusy, hcq :: rest, [])
    else
      match hcq.cqh_ucq with
      | some u =>
          if destroy u ≠ 0 then
            (CloseRet.destroyErr (destroy u), rest, [])
          else
            let out := usdf_cq_close_soft_loop destroy rest
            (out.1, out.2.1, u :: out.2.2)
      | none => usdf_cq_close_soft_loop destroy rest

/-- `usdf_cq_close`: the returned code, the surviving CQ (`none` when
`free(cq)` ran), and the destroyed hardware-queue handles. -/
def usdf_cq_close (destroy : Nat → Int) (cq : UsdfCq) :
    CloseRet × Option UsdfCq × List Nat :=
  if 0 < cq.cq_refcnt then (CloseRet.ebusy, some cq, [])
  else
    if usdf_cq_is_soft cq then
      let s := softSide cq.c
      let out := usdf_cq_close_soft_loop destroy s.cq_list
      match out.1 with
      | CloseRet.ok => (CloseRet.ok, none, out.2.2)
      | r => (r, some { cq with c := CqUnion.soft ⟨out.2.1, s.cq_ring⟩ },
              out.2.2)
    else
      match hardHandle cq.c with
      | some u =>
          if destroy u ≠ 0 then
            (CloseRet.destroyErr (destroy u), some cq, [])
          else (CloseRet.ok, none, [u])
      | none => (CloseRet.ok, none, [])

/-- `attr->wait_obj`; only "none" is accepted. -/
inductive WaitObj where
  | waitNone
  | waitOther (n : Int)
deriving DecidableEq, Repr

/-- The caller's `struct fi_cq_attr` fields this module reads. -/
structure CqAttr where
  size : Nat
  format : CqFormat
  wait_obj : WaitObj
deriving DecidableEq, Repr

/-- Error codes `usdf_cq_open` / `usdf_cq_process_attr` can return. -/
inductive OpenErr where
  | enosys
  | einval
  | enomem
deriving DecidableEq, Repr

/-- `usdf_cq_process_attr`: reject wait objects, bound and default the
depth against the device maximum `maxCqe`, and default an unspecified
format to context-only.  The attr is updated in place for the caller. -/
def usdf_cq_process_attr (maxCqe : Nat) (attr : CqAttr) :
    Except OpenErr CqAttr :=
  if attr.wait_obj ≠ WaitObj.waitNone then Except.error OpenErr.enosys
  else if maxCqe < attr.size then Except.error OpenErr.einval
  else
    let a1 := if attr.size = 0 then { attr with size := maxCqe } else attr
    let a2 := if a1.format = CqFormat.unspec then
        { a1 with format := CqFormat.context }
      else a1
    Except.ok a2

/-- `usdf_cq_open`: `allocOk` is the outcome of the `calloc` of the CQ
object.  On success the new CQ is in hard mode with a zero reference
count, a zeroed union (no hardware queue yet) and the per-format hard
operation table; the processed attr is stored on the CQ and also
returned (the caller's attr was mutated in place). -/
def usdf_cq_open (maxCqe : Nat) (allocOk : Bool) (attr : CqAttr) :
    Except OpenErr (UsdfCq × CqAttr) :=
  match usdf_cq_process_attr maxCqe attr with
  | Except.error e => Except.error e
  | Except.ok a =>
    if allocOk = false then Except.error OpenErr.enomem
    else
      match a.format with
      | CqFormat.context =>
          Except.ok (⟨a.format, a.size, 0, OpsCq.contextOps,
            CqUnion.hard none⟩, a)
      | CqFormat.msg =>
          Except.ok (⟨a.format, a.size, 0, OpsCq.msgOps,
            CqUnion.hard none⟩, a)
      | CqFormat.data =>
          Except.ok (⟨a.format, a.size, 0, OpsCq.dataOps,
            CqUnion.hard none⟩, a)
      | _ => Except.error OpenErr.enosys

/-! ## Theorems -/

theorem subWrap_eq {a b : Nat} (h1 : b ≤ a) (h2 : a < W64) :
    subWrap a b = a - b := by
  unfold subWrap
  have hb : b % W64 = b := Nat.mod_eq_of_lt (lt_of_le_of_lt h1 h2)
  rw [hb]
  have hbW : b ≤ W64 := le_of_lt (lt_of_le_of_lt h1 h2)
  have h3 : a + (W64 - b) = (a - b) + W64 := by omega
  rw [h3, Nat.add_mod_right]
  exact Nat.mod_eq_of_lt (by omega)

theorem addWrap_eq {a b : Nat} (h : a + b < W64) : addWrap a b = a + b :=
  Nat.mod_eq_of_lt h

/-- C7: every completion formatted by the Entry Copier in a
length-carrying format (`msg` or `data`) obeys the length-adjustment
rule: a receive completion of raw length `L` reports `L - hdrSize` with
header-prefix mode off and `L + (hdrBufEntry - hdrSize)` with it on; a
send completion reports `L + hdrBufEntry` with header-prefix mode on and
`L` unchanged otherwise. -/
theorem C7_entry_copier_length_rule
    (hdrSize hdrBufEntry L ctx : Nat) (status : CompStatus)
    (format : CqFormat)
    (hfmt : format = CqFormat.msg ∨ format = CqFormat.data)
    (hhb : hdrSize ≤ hdrBufEntry)
    (hL : hdrSize ≤ L)
    (hbound : L + hdrBufEntry < W64) :
    Option.map CqOutEntry.lenField
        (usdf_cq_copy_cq_entry hdrSize hdrBufEntry
          ⟨ctx, L, status, CompType.recv, false⟩ format)
      = some (some (L - hdrSize)) ∧
    Option.map CqOutEntry.lenField
        (usdf_cq_copy_cq_entry hdrSize hdrBufEntry
          ⟨ctx, L, status, CompType.recv, true⟩ format)
      = some (some (L + (hdrBufEntry - hdrSize))) ∧
    Option.map CqOutEntry.lenField
        (usdf_cq_copy_cq_entry hdrSize hdrBufEntry
          ⟨ctx, L, status, CompType.send, true⟩ format)
      = some (some (L + hdrBufEntry)) ∧
    Option.map CqOutEntry.lenField
        (usdf_cq_copy_cq_entry hdrSize hdrBufEntry
          ⟨ctx, L, status, CompType.send, false⟩ format)
      = some (some L) := by
  have hW : hdrBufEntry < W64 := by omega
  have h1 : subWrap L hdrSize = L - hdrSize :=
    subWrap_eq hL (by omega)
  have h2 : subWrap hdrBufEntry hdrSize = hdrBufEntry - hdrSize :=
    subWrap_eq hhb hW
  have h3 : addWrap L (hdrBufEntry - hdrSize) = L + (hdrBufEntry - hdrSize) :=
    addWrap_eq (by omega)
  have h4 : addWrap L hdrBufEntry = L + hdrBufEntry :=
    addWrap_eq (by omega)
  rcases hfmt with h | h <;> subst h <;>
    simp [usdf_cq_copy_cq_entry, usdf_cq_adjust_len, CqOutEntry.lenField,
      h1, h2, h3, h4]

/-- Witness for C7 at `hdrSize = 42`, `hdrBufEntry = 64`, `L = 100`. -/
theorem C7_entry_copier_length_rule_witness :
    Option.map CqOutEntry.lenField
        (usdf_cq_copy_cq_entry 42 64
          ⟨7, 100, CompStatus.success, CompType.recv, false⟩ CqFormat.msg)
      = some (some (100 - 42)) ∧
    Option.map CqOutEntry.lenField
        (usdf_cq_copy_cq_entry 42 64
          ⟨7, 100, CompStatus.success, CompType.recv, true⟩ CqFormat.msg)
      = some (some (100 + (64 - 42))) ∧
    Option.map CqOutEntry.lenField
        (usdf_cq_copy_cq_entry 42 64
          ⟨7, 100, CompStatus.success, CompType.send, true⟩ CqFormat.msg)
      = some (some (100 + 64)) ∧
    Option.map CqOutEntry.lenField
        (usdf_cq_copy_cq_entry 42 64
          ⟨7, 100, CompStatus.success, CompType.send, false⟩ CqFormat.msg)
      = some (some 100) :=
  C7_entry_copier_length_rule 42 64 100 7 CompStatus.success CqFormat.msg
    (Or.inl rfl) (by decide) (by decide) (by decide)

/-- C1 (code bug, failing input): the soft-mode pump dequeues the raw
completion `⟨2, 7, errCrc, recv⟩` into its local variable but pushes a
Soft Entry built from the stale CQ-level slot `cq_comp = ⟨1, 5, …⟩`
instead, and never assigns the provider-errno field (the slot keeps its
previous value 9): the pushed entry is not the normalization of the
dequeued completion — its context is 1 ≠ 2, its length 5 ≠ 7 and its
provider errno 9 is not the code of the dequeued CRC error. -/
theorem C1_pump_pushes_stale_completion :
    (usdf_progress_hard_cq
        ⟨⟨1, 5, CompStatus.success, CompType.send, false⟩,
         ⟨[⟨0, 0, 0, 0, 0, 9⟩, ⟨0, 0, 0, 0, 0, 0⟩], 0, 0, SoftCqOp.read⟩⟩
        [⟨2, 7, CompStatus.errCrc, CompType.recv, false⟩]).ring.comps.getD
        0 default
      = ⟨1, 0, 5, 0, 0, 9⟩ ∧
    (1 : Nat) ≠ 2 ∧ (5 : Nat) ≠ 7 ∧
    (9 : Int) ≠ provErrnoOfStatus CompStatus.errCrc := by
  decide

/-- C3 (code bug, failing input): on a soft-mode CQ whose ring is empty
(fresh two-slot ring: head = tail, last operation read), an error-read
does not return TryAgain — `usdf_cq_readerr_soft` unconditionally
consumes the tail slot, reports a fabricated detail from its zeroed
contents and advances the ring tail. -/
theorem C3_readerr_soft_ignores_empty_ring :
    usdf_cq_readerr_soft (freshRing 2)
      = (ReaderrResult.entryRead ⟨0, 0, FI_EIO, 0⟩,
         ⟨[⟨0, 0, 0, 0, 0, 0⟩, ⟨0, 0, 0, 0, 0, 0⟩], 0, 1, SoftCqOp.read⟩) ∧
    (usdf_cq_readerr_soft (freshRing 2)).1 ≠ ReaderrResult.eagain := by
  decide

theorem pushList_append (s : SoftCqState) (as bs : List (Nat × Nat × Int)) :
    pushList s (as ++ bs) = pushList (pushList s as) bs := by
  induction as generalizing s with
  | nil => rfl
  | cons a t ih => simp [pushList, ih]

theorem usdf_cq_post_soft_full (s : SoftCqState) (h : s.head = s.tail)
    (h2 : s.last_op = SoftCqOp.write) (c l : Nat) (p : Int) :
    usdf_cq_post_soft s c l p = s := by
  simp [usdf_cq_post_soft, h, h2]

theorem pushList_full (s : SoftCqState) (h : s.head = s.tail)
    (h2 : s.last_op = SoftCqOp.write) (xs : List (Nat × Nat × Int)) :
    pushList s xs = s := by
  induction xs with
  | nil => rfl
  | cons x t ih => simp [pushList, usdf_cq_post_soft_full s h h2, ih]

theorem usdf_cq_post_soft_not_full (s : SoftCqState) (c l : Nat) (p : Int)
    (h : ¬(s.head = s.tail ∧ s.last_op = SoftCqOp.write)) :
    usdf_cq_post_soft s c l p =
      ⟨s.comps.set s.head
         { s.comps.getD s.head default with
             cse_context := c, cse_len := l, cse_prov_errno := p },
       ringNext s.comps.length s.head, s.tail, SoftCqOp.write⟩ := by
  simp [usdf_cq_post_soft, h]

theorem pushList_fill (C : Nat) (hC : 0 < C) (ys : List (Nat × Nat × Int)) :
    ys.length ≤ C →
    pushList (freshRing C) ys =
      ⟨ys.map mkSoftEntry ++
         List.replicate (C - ys.length) ⟨0, 0, 0, 0, 0, 0⟩,
       ys.length % C, 0,
       if ys = [] then SoftCqOp.read else SoftCqOp.write⟩ := by
  induction ys using List.reverseRecOn with
  | nil => intro _; simp [pushList, freshRing]
  | append_singleton zs z ih =>
    intro hlen
    have hlz : zs.length < C := by simp at hlen; omega
    rw [pushList_append, ih (Nat.le_of_lt hlz)]
    show usdf_cq_post_soft _ z.1 z.2.1 z.2.2 = _
    have hmod : zs.length % C = zs.length := Nat.mod_eq_of_lt hlz
    have hrep : C - zs.length = (C - (zs.length + 1)) + 1 := by omega
    have hnotfull : ¬((⟨zs.map mkSoftEntry ++
          List.replicate (C - zs.length) ⟨0, 0, 0, 0, 0, 0⟩,
        zs.length % C, 0,
        if zs = [] then SoftCqOp.read else SoftCqOp.write⟩ :
          SoftCqState).head =
        (⟨zs.map mkSoftEntry ++
            List.replicate (C - zs.length) ⟨0, 0, 0, 0, 0, 0⟩,
          zs.length % C, 0,
          if zs = [] then SoftCqOp.read else SoftCqOp.write⟩ :
            SoftCqState).tail ∧
        (⟨zs.map mkSoftEntry ++
            List.replicate (C - zs.length) ⟨0, 0, 0, 0, 0, 0⟩,
          zs.length % C, 0,
          if zs = [] then SoftCqOp.read else SoftCqOp.write⟩ :
            SoftCqState).last_op = SoftCqOp.write) := by
      by_cases hz : zs = []
      · subst hz; simp
      · have hnz : 0 < zs.length := List.length_pos.mpr hz
        simp only [hz, if_neg, hmod]
        intro hcon
        rcases hcon with ⟨h1, _⟩
        omega
    rw [usdf_cq_post_soft_not_full _ _ _ _ hnotfull]
    have hAlen :
        (zs.map mkSoftEntry ++
          List.replicate (C - zs.length)
            (⟨0, 0, 0, 0, 0, 0⟩ : SoftEntry)).length = C := by
      simp; omega
    have hget :
        (zs.map mkSoftEntry ++
          List.replicate (C - zs.length)
            (⟨0, 0, 0, 0, 0, 0⟩ : SoftEntry)).getD zs.length default
          = ⟨0, 0, 0, 0, 0, 0⟩ := by
      rw [List.getD_append_right _ _ _ _ (by simp)]
      simp only [List.length_map, Nat.sub_self]
      rw [hrep, List.replicate_succ]
      rfl
    have hset :
        (zs.map mkSoftEntry ++
          List.replicate (C - zs.length)
            (⟨0, 0, 0, 0, 0, 0⟩ : SoftEntry)).set zs.length (mkSoftEntry z)
          = (zs ++ [z]).map mkSoftEntry ++
              List.replicate (C - (zs.length + 1)) ⟨0, 0, 0, 0, 0, 0⟩ := by
      rw [List.set_append, if_neg (by simp)]
      simp only [List.length_map, Nat.sub_self]
      rw [hrep, List.replicate_succ, List.set_cons_zero]
      simp
    simp only [hmod, hget]
    congr 1
    · have hz2 : (zs ++ [z]).length = zs.length + 1 := by simp
      rw [hz2, ← hset]
      rfl
    · rw [hAlen]
      simp only [List.length_append, List.length_cons, List.length_nil]
      unfold ringNext
      rcases Nat.lt_or_ge (zs.length + 1) C with h1 | h1
      · rw [if_neg (by omega), Nat.mod_eq_of_lt (by omega)]
      · have h2 : zs.length + 1 = C := by omega
        rw [if_pos h2, h2, Nat.mod_self]
    · simp

theorem copy_soft_entry_valid (format : CqFormat)
    (hfmt : format = CqFormat.context ∨ format = CqFormat.msg ∨
      format = CqFormat.data) (e : SoftEntry) :
    usdf_cq_copy_soft_entry e format = some (copyEntryD format e) := by
  rcases hfmt with h | h | h <;> subst h <;>
    simp [usdf_cq_copy_soft_entry, copyEntryD]

theorem softDrainLoop_consume (format : CqFormat)
    (hfmt : format = CqFormat.context ∨ format = CqFormat.msg ∨
      format = CqFormat.data)
    (comps : List SoftEntry) (h t0 : Nat) :
    ∀ (j t m : Nat) (lop : SoftCqOp),
      t + j ≤ comps.length →
      (∀ i, i < j → (comps.getD (t + i) default).cse_prov_errno ≤ 0) →
      (0 < j → lop = SoftCqOp.read → t ≠ h) →
      (∀ i, 0 < i → i < j → t + i ≠ h) →
      softDrainLoop format ⟨comps, h, t0, lop⟩ t (j + m) =
        (let rest := softDrainLoop format
            ⟨comps, h, t0, if j = 0 then lop else SoftCqOp.read⟩
            (if j = 0 then t else if t + j = comps.length then 0 else t + j) m
         ⟨(List.range j).map
             (fun i => copyEntryD format (comps.getD (t + i) default)) ++
             rest.recs,
          rest.tail, rest.last_op, rest.stop⟩) := by
  intro j
  induction j with
  | zero =>
    intro t m lop _ _ _ _
    simp
  | succ j ih =>
    intro t m lop hle hsucc hne0 hnei
    have hstep : j + 1 + m = (j + m) + 1 := by omega
    rw [hstep]
    have hcond : ¬(t = h ∧ lop = SoftCqOp.read) := by
      intro hcon
      exact hne0 (Nat.succ_pos j) hcon.2 hcon.1
    have herr : ¬(0 < (comps.getD t default).cse_prov_errno) := by
      have := hsucc 0 (Nat.succ_pos j)
      rw [Nat.add_zero] at this
      omega
    simp only [softDrainLoop]
    rw [if_neg (by exact fun hcon => hcond ⟨hcon.1, hcon.2⟩)]
    rw [if_neg herr, copy_soft_entry_valid format hfmt]
    by_cases hj : j = 0
    · subst hj
      simp only [softDrainLoop]
      have : ringNext comps.length t = if t + 1 = comps.length then 0
          else t + 1 := by
        unfold ringNext; rfl
      simp [this, List.range_succ]
    · have hwrap : t + 1 ≠ comps.length := by omega
      have hnext : ringNext comps.length t = t + 1 := by
        unfold ringNext; rw [if_neg hwrap]
      rw [hnext]
      rw [ih (t + 1) m SoftCqOp.read (by omega)
        (fun i hi => by
          have := hsucc (i + 1) (by omega)
          rwa [show t + (i + 1) = t + 1 + i from by omega] at this)
        (fun _ _ => hnei 1 Nat.one_pos (by omega))
        (fun i hi hij => by
          have := hnei (i + 1) (by omega) (by omega)
          rwa [show t + (i + 1) = t + 1 + i from by omega] at this)]
      simp only [if_neg hj, if_neg (Nat.succ_ne_zero j)]
      have harith : t + 1 + j = t + (j + 1) := by omega
      rw [harith]
      simp only [List.range_succ_eq_map, List.map_cons, List.map_map,
        List.cons_append, Nat.add_zero]
      have hmaps :
          List.map (fun i => copyEntryD format (comps.getD (t + 1 + i) default))
            (List.range j)
          = List.map ((fun i => copyEntryD format (comps.getD (t + i) default))
              ∘ Nat.succ) (List.range j) := by
        apply List.map_congr_left
        intro i _
        simp only [Function.comp_apply]
        rw [show t + 1 + i = t + Nat.succ i from by omega]
      rw [hmaps]

theorem range_map_getD {α β : Type} (d : α) (f : α → β) (l : List α) :
    (List.range l.length).map (fun i => f (l.getD i d)) = l.map f := by
  induction l with
  | nil => rfl
  | cons a t ih =>
    rw [List.length_cons, List.range_succ_eq_map, List.map_cons,
      List.map_map, List.map_cons]
    congr 1

theorem softDrainLoop_full_ring (format : CqFormat)
    (hfmt : format = CqFormat.context ∨ format = CqFormat.msg ∨
      format = CqFormat.data)
    (comps : List SoftEntry) (hC : 0 < comps.length)
    (hsucc : ∀ i, i < comps.length →
      (comps.getD i default).cse_prov_errno ≤ 0) (t0 m : Nat) :
    softDrainLoop format ⟨comps, 0, t0, SoftCqOp.write⟩ 0
        (comps.length + m) =
      ⟨comps.map (copyEntryD format), 0, SoftCqOp.read,
       SoftDrainStop.done⟩ := by
  have hC0 : comps.length ≠ 0 := by omega
  rw [softDrainLoop_consume format hfmt comps 0 t0 comps.length 0 m
    SoftCqOp.write (by omega)
    (fun i hi => by rw [Nat.zero_add]; exact hsucc i hi)
    (fun _ hw => absurd hw (by decide))
    (fun i hi _ => by omega)]
  have hrest : softDrainLoop format ⟨comps, 0, t0, SoftCqOp.read⟩ 0 m =
      ⟨[], 0, SoftCqOp.read, SoftDrainStop.done⟩ := by
    cases m <;> simp [softDrainLoop]
  have hmap := range_map_getD (default : SoftEntry) (copyEntryD format) comps
  simp only [if_neg hC0, Nat.zero_add, if_pos rfl, eq_self_iff_true,
    if_true, hrest, hmap, List.append_nil]

/-- C6: pushing `N = xs.length ≥ C` completions onto a fresh Soft Entry
Ring of capacity `C` with no interleaved reads retains exactly the first
`C` pushed entries and silently drops the remaining `N − C`; a push onto
a full ring (head = tail with last operation a write) leaves the ring
unchanged; and a subsequent read of at least `C` entries returns exactly
those `C` entries, formatted, in original push order, leaving the ring
empty. -/
theorem C6_ring_overflow_retains_first_C (C count : Nat)
    (xs : List (Nat × Nat × Int)) (format : CqFormat)
    (comp0 : UsdCompletion)
    (hfmt : format = CqFormat.context ∨ format = CqFormat.msg ∨
      format = CqFormat.data)
    (hC : 0 < C) (hlen : C ≤ xs.length) (hcount : C ≤ count)
    (hcomp : comp0.uc_status = CompStatus.success)
    (hsucc : ∀ x ∈ xs.take C, x.2.2 ≤ 0) :
    pushList (freshRing C) xs =
      ⟨(xs.take C).map mkSoftEntry, 0, 0, SoftCqOp.write⟩ ∧
    usdf_cq_read_common_soft id ⟨comp0, pushList (freshRing C) xs⟩ count
        format
      = (ReadResult.entries ((xs.take C).map fun x =>
            copyEntryD format (mkSoftEntry x)),
         ⟨comp0, ⟨(xs.take C).map mkSoftEntry, 0, 0, SoftCqOp.read⟩⟩) ∧
    (∀ (s : SoftCqState) (c l : Nat) (p : Int),
       s.head = s.tail → s.last_op = SoftCqOp.write →
       usdf_cq_post_soft s c l p = s) := by
  have htake : (xs.take C).length = C := by
    rw [List.length_take]; omega
  have h1 : pushList (freshRing C) xs =
      ⟨(xs.take C).map mkSoftEntry, 0, 0, SoftCqOp.write⟩ := by
    conv_lhs => rw [← List.take_append_drop C xs]
    rw [pushList_append, pushList_fill C hC _ (le_of_eq htake)]
    have hne : ¬(xs.take C = []) := by
      intro hnil
      rw [hnil] at htake
      simp at htake
      omega
    rw [htake]
    simp only [Nat.sub_self, List.replicate_zero, List.append_nil,
      Nat.mod_self, if_neg hne]
    exact pushList_full _ rfl rfl _
  refine ⟨h1, ?_, fun s c l p hh hl => usdf_cq_post_soft_full s hh hl c l p⟩
  rw [h1]
  have hlenm : ((xs.take C).map mkSoftEntry).length = C := by
    rw [List.length_map, htake]
  have hsucc2 : ∀ i, i < ((xs.take C).map mkSoftEntry).length →
      (((xs.take C).map mkSoftEntry).getD i default).cse_prov_errno ≤ 0 := by
    intro i hi
    rw [List.getD_eq_getElem _ _ hi, List.getElem_map]
    exact hsucc _ (List.getElem_mem (by omega))
  have hdrain : softDrainLoop format
      ⟨(xs.take C).map mkSoftEntry, 0, 0, SoftCqOp.write⟩ 0 count
      = ⟨((xs.take C).map mkSoftEntry).map (copyEntryD format), 0,
         SoftCqOp.read, SoftDrainStop.done⟩ := by
    have hcnt : count = ((xs.take C).map mkSoftEntry).length +
        (count - C) := by rw [hlenm]; omega
    rw [hcnt]
    exact softDrainLoop_full_ring format hfmt _ (by rw [hlenm]; exact hC)
      hsucc2 0 (count - C)
  have hrecs_ne : ¬(((xs.take C).map mkSoftEntry).map (copyEntryD format)
      = []) := by
    intro hnil
    have h2 := congrArg List.length hnil
    rw [List.length_map, hlenm, List.length_nil] at h2
    omega
  have hCne : C ≠ 0 := by omega
  have hxs : ¬(xs = []) := by
    intro hnil
    rw [hnil] at hlen
    simp at hlen
    omega
  rcases hfmt with h | h | h <;> subst h <;>
    simp only [usdf_cq_read_common_soft, hcomp, ne_eq, id_eq, hdrain,
      if_neg hrecs_ne, List.map_map] <;>
    simp [List.map_map, hCne, hxs, Function.comp] <;> rfl

/-- Witness for C6: capacity 2, three pushes, msg format. -/
theorem C6_ring_overflow_retains_first_C_witness :
    pushList (freshRing 2) [(1, 10, 0), (2, 20, 0), (3, 30, 0)] =
      ⟨(([(1, 10, 0), (2, 20, 0), (3, 30, 0)] :
          List (Nat × Nat × Int)).take 2).map mkSoftEntry, 0, 0,
       SoftCqOp.write⟩ ∧
    usdf_cq_read_common_soft id
        ⟨⟨0, 0, CompStatus.success, CompType.send, false⟩,
         pushList (freshRing 2) [(1, 10, 0), (2, 20, 0), (3, 30, 0)]⟩ 2
        CqFormat.msg
      = (ReadResult.entries
           ((([(1, 10, 0), (2, 20, 0), (3, 30, 0)] :
               List (Nat × Nat × Int)).take 2).map fun x =>
              copyEntryD CqFormat.msg (mkSoftEntry x)),
         ⟨⟨0, 0, CompStatus.success, CompType.send, false⟩,
          ⟨(([(1, 10, 0), (2, 20, 0), (3, 30, 0)] :
              List (Nat × Nat × Int)).take 2).map mkSoftEntry, 0, 0,
           SoftCqOp.read⟩⟩) ∧
    (∀ (s : SoftCqState) (c l : Nat) (p : Int),
       s.head = s.tail → s.last_op = SoftCqOp.write →
       usdf_cq_post_soft s c l p = s) :=
  C6_ring_overflow_retains_first_C 2 2
    [(1, 10, 0), (2, 20, 0), (3, 30, 0)] CqFormat.msg
    ⟨0, 0, CompStatus.success, CompType.send, false⟩
    (Or.inr (Or.inl rfl)) (by decide) (by decide) (by decide) (by decide)
    (by decide)

theorem copy_cq_entry_valid (hdrSize hdrBufEntry : Nat) (format : CqFormat)
    (hfmt : format = CqFormat.context ∨ format = CqFormat.msg ∨
      format = CqFormat.data) (comp : UsdCompletion) :
    usdf_cq_copy_cq_entry hdrSize hdrBufEntry comp format
      = some (copyCqEntryD hdrSize hdrBufEntry format comp) := by
  rcases hfmt with h | h | h <;> subst h <;>
    simp [usdf_cq_copy_cq_entry, copyCqEntryD]

theorem readHardLoop_goods (hdrSize hdrBufEntry : Nat) (format : CqFormat)
    (hfmt : format = CqFormat.context ∨ format = CqFormat.msg ∨
      format = CqFormat.data) :
    ∀ (goods : List UsdCompletion) (collected : List CqOutEntry)
      (remaining : Nat) (comp0 bad : UsdCompletion)
      (rest : List (Option UsdCompletion)),
      (∀ g ∈ goods, g.uc_status = CompStatus.success) →
      bad.uc_status ≠ CompStatus.success →
      goods.length < remaining →
      readHardLoop hdrSize hdrBufEntry format comp0 collected remaining
          (goods.map some ++ some bad :: rest)
        = HardReadOut.ret
            (if collected ++
                goods.map (copyCqEntryD hdrSize hdrBufEntry format) = []
             then ReadResult.eavail
             else ReadResult.entries (collected ++
               goods.map (copyCqEntryD hdrSize hdrBufEntry format))) bad := by
  intro goods
  induction goods with
  | nil =>
    intro collected remaining comp0 bad rest _ hbad hrem
    obtain ⟨r, rfl⟩ : ∃ r, remaining = r + 1 := ⟨remaining - 1, by omega⟩
    simp only [List.map_nil, List.nil_append, readHardLoop, List.append_nil]
    rw [if_pos hbad]
  | cons g gs ih =>
    intro collected remaining comp0 bad rest hgood hbad hrem
    obtain ⟨r, rfl⟩ : ∃ r, remaining = r + 1 := ⟨remaining - 1, by omega⟩
    have hg : g.uc_status = CompStatus.success := hgood g (by simp)
    simp only [List.map_cons, List.cons_append, readHardLoop]
    rw [if_neg (by simp [hg]),
      copy_cq_entry_valid hdrSize hdrBufEntry format hfmt g]
    have hih := ih (collected ++ [copyCqEntryD hdrSize hdrBufEntry format g])
      r g bad rest (fun x hx => hgood x (by simp [hx])) hbad
      (by simp only [List.length_cons] at hrem; omega)
    simp [hih, List.append_assoc]

theorem sreadHardLoop_goods (hdrSize hdrBufEntry baseQ maxQ : Nat)
    (format : CqFormat) (timeout_ms : Int)
    (hfmt : format = CqFormat.context ∨ format = CqFormat.msg ∨
      format = CqFormat.data) :
    ∀ (goods : List UsdCompletion) (collected : List CqOutEntry)
      (remaining : Nat) (comp0 bad : UsdCompletion)
      (rest : List (Option UsdCompletion)) (time_spent sleep_q : Nat)
      (sleeps : List Nat),
      (∀ g ∈ goods, g.uc_status = CompStatus.success) →
      bad.uc_status ≠ CompStatus.success →
      goods.length < remaining →
      sreadHardLoop hdrSize hdrBufEntry baseQ maxQ format timeout_ms comp0
          collected remaining time_spent sleep_q sleeps
          (goods.map some ++ some bad :: rest)
        = ⟨SreadOutcome.ret
            (if collected ++
                goods.map (copyCqEntryD hdrSize hdrBufEntry format) = []
             then ReadResult.eavail
             else ReadResult.entries (collected ++
               goods.map (copyCqEntryD hdrSize hdrBufEntry format))),
           bad, sleeps⟩ := by
  intro goods
  induction goods with
  | nil =>
    intro collected remaining comp0 bad rest time_spent sleep_q sleeps _
      hbad hrem
    obtain ⟨r, rfl⟩ : ∃ r, remaining = r + 1 := ⟨remaining - 1, by omega⟩
    simp only [List.map_nil, List.nil_append, sreadHardLoop,
      List.append_nil]
    rw [if_pos hbad]
  | cons g gs ih =>
    intro collected remaining comp0 bad rest time_spent sleep_q sleeps
      hgood hbad hrem
    obtain ⟨r, rfl⟩ : ∃ r, remaining = r + 1 := ⟨remaining - 1, by omega⟩
    have hg : g.uc_status = CompStatus.success := hgood g (by simp)
    simp only [List.map_cons, List.cons_append, sreadHardLoop]
    rw [if_neg (by simp [hg]),
      copy_cq_entry_valid hdrSize hdrBufEntry format hfmt g]
    have hih := ih (collected ++ [copyCqEntryD hdrSize hdrBufEntry format g])
      r g bad rest time_spent sleep_q sleeps
      (fun x hx => hgood x (by simp [hx])) hbad
      (by simp only [List.length_cons] at hrem; omega)
    simp [hih, List.append_assoc]

theorem range_map_getD_front {α β : Type} (d : α) (f : α → β)
    (l1 l2 : List α) :
    (List.range l1.length).map (fun i => f ((l1 ++ l2).getD i d))
      = l1.map f := by
  rw [← range_map_getD d f l1]
  apply List.map_congr_left
  intro i hi
  rw [List.getD_append _ _ _ _ (List.mem_range.mp hi)]

theorem softDrainLoop_hits_error (format : CqFormat)
    (hfmt : format = CqFormat.context ∨ format = CqFormat.msg ∨
      format = CqFormat.data)
    (gs : List (Nat × Nat × Int)) (bp : Nat × Nat × Int) (C m : Nat)
    (hC : gs.length + 1 ≤ C)
    (hsucc : ∀ x ∈ gs, x.2.2 ≤ 0) (hbp : 0 < bp.2.2) :
    softDrainLoop format
        ⟨gs.map mkSoftEntry ++ mkSoftEntry bp ::
           List.replicate (C - (gs.length + 1)) ⟨0, 0, 0, 0, 0, 0⟩,
         (gs.length + 1) % C, 0, SoftCqOp.write⟩ 0
        (gs.length + (m + 1))
      = ⟨gs.map (fun x => copyEntryD format (mkSoftEntry x)), gs.length,
         (if gs.length = 0 then SoftCqOp.write else SoftCqOp.read),
         SoftDrainStop.errorHit⟩ := by
  have hlen : (gs.map mkSoftEntry ++ mkSoftEntry bp ::
      List.replicate (C - (gs.length + 1))
        (⟨0, 0, 0, 0, 0, 0⟩ : SoftEntry)).length = C := by
    simp; omega
  have hhead : (gs.length + 1) % C = gs.length + 1 ∨
      ((gs.length + 1) % C = 0 ∧ gs.length + 1 = C) := by
    rcases Nat.lt_or_ge (gs.length + 1) C with h1 | h1
    · exact Or.inl (Nat.mod_eq_of_lt h1)
    · have : gs.length + 1 = C := by omega
      exact Or.inr ⟨by rw [this, Nat.mod_self], this⟩
  rw [softDrainLoop_consume format hfmt _ _ _ gs.length 0 (m + 1)
    SoftCqOp.write (by rw [hlen]; omega)
    (fun i hi => by
      rw [Nat.zero_add, List.getD_append _ _ _ _ (by simp; omega),
        List.getD_eq_getElem _ _ (by simp; omega), List.getElem_map]
      exact hsucc _ (List.getElem_mem (by omega)))
    (fun _ hw => absurd hw (by decide))
    (fun i hi hij => by
      rcases hhead with h1 | ⟨h1, h2⟩ <;> omega)]
  have hgetbad : (gs.map mkSoftEntry ++ mkSoftEntry bp ::
      List.replicate (C - (gs.length + 1))
        (⟨0, 0, 0, 0, 0, 0⟩ : SoftEntry)).getD gs.length default
      = mkSoftEntry bp := by
    rw [List.getD_append_right _ _ _ _ (by simp)]
    simp
  have hrest : ∀ lop2 : SoftCqOp,
      (lop2 = SoftCqOp.write ∨ gs.length ≠ (gs.length + 1) % C) →
      softDrainLoop format
        ⟨gs.map mkSoftEntry ++ mkSoftEntry bp ::
           List.replicate (C - (gs.length + 1)) ⟨0, 0, 0, 0, 0, 0⟩,
         (gs.length + 1) % C, 0, lop2⟩ gs.length (m + 1)
      = ⟨[], gs.length, lop2, SoftDrainStop.errorHit⟩ := by
    intro lop2 hlop2
    simp only [softDrainLoop]
    rw [if_neg (by
      intro hcon
      rcases hlop2 with h1 | h1
      · rw [hcon.2] at h1
        exact absurd h1 (by decide)
      · exact h1 hcon.1)]
    rw [hgetbad]
    rw [if_pos (by simp [mkSoftEntry]; omega)]
  by_cases hK : gs.length = 0
  · have hnil : gs = [] := List.length_eq_zero.mp hK
    subst hnil
    simp only [List.length_nil, List.map_nil, List.nil_append,
      List.range_zero, eq_self_iff_true, if_true, Nat.zero_add] at hrest ⊢
    rw [hrest SoftCqOp.write (Or.inl rfl)]
  · have htne : gs.length ≠ (gs.length + 1) % C := by
      rcases hhead with h1 | ⟨h1, h2⟩ <;> omega
    simp only [if_neg hK, Nat.zero_add]
    rw [if_neg (by rw [hlen]; omega)]
    rw [hrest SoftCqOp.read (Or.inr htne)]
    have hmaps : (List.range gs.length).map
        (fun i => copyEntryD format
          ((gs.map mkSoftEntry ++ mkSoftEntry bp ::
            List.replicate (C - (gs.length + 1))
              ⟨0, 0, 0, 0, 0, 0⟩).getD i default))
        = gs.map (fun x => copyEntryD format (mkSoftEntry x)) := by
      have hpre := range_map_getD_front (default : SoftEntry)
        (copyEntryD format) (gs.map mkSoftEntry)
        (mkSoftEntry bp :: List.replicate (C - (gs.length + 1))
          ⟨0, 0, 0, 0, 0, 0⟩)
      rw [List.length_map] at hpre
      rw [hpre, List.map_map]
      rfl
    rw [← hmaps]
    simp

theorem softDrainLoop_error_first (format : CqFormat)
    (comps : List SoftEntry) (h t0 t r : Nat) (lop : SoftCqOp)
    (hne : ¬(t = h ∧ lop = SoftCqOp.read))
    (herr : 0 < (comps.getD t default).cse_prov_errno) :
    softDrainLoop format ⟨comps, h, t0, lop⟩ t (r + 1)
      = ⟨[], t, lop, SoftDrainStop.errorHit⟩ := by
  simp only [softDrainLoop]
  rw [if_neg hne, if_pos herr]

/-- C4: a read call (hard or soft mode, blocking or non-blocking) that
has already collected `K > 0` entries when it encounters a completion
marked as an error stops and returns exactly those `K` entries as a
success; the error is surfaced by a subsequent read (which, with the
error first, returns ErrorAvailable and leaves the error in place: in
the hard-mode sticky slot, at the soft-mode ring tail). -/
theorem C4_partial_batch_before_error (hdrSize hdrBufEntry : Nat)
    (initQ baseQ maxQ : Nat) (timeout_ms : Int) (format : CqFormat)
    (comp0 bad : UsdCompletion) (goods : List UsdCompletion)
    (rest : List (Option UsdCompletion))
    (gs : List (Nat × Nat × Int)) (bp : Nat × Nat × Int) (C count : Nat)
    (hfmt : format = CqFormat.context ∨ format = CqFormat.msg ∨
      format = CqFormat.data)
    (hcomp : comp0.uc_status = CompStatus.success)
    (hgood : ∀ g ∈ goods, g.uc_status = CompStatus.success)
    (hbad : bad.uc_status ≠ CompStatus.success)
    (hgne : goods ≠ []) (hgcnt : goods.length < count)
    (hsucc : ∀ x ∈ gs, x.2.2 ≤ 0) (hbp : 0 < bp.2.2)
    (hgsne : gs ≠ []) (hC : gs.length + 1 ≤ C)
    (hscnt : gs.length < count) :
    usdf_cq_read_common hdrSize hdrBufEntry comp0 count format
        (goods.map some ++ some bad :: rest)
      = HardReadOut.ret
          (ReadResult.entries
            (goods.map (copyCqEntryD hdrSize hdrBufEntry format))) bad ∧
    usdf_cq_read_common hdrSize hdrBufEntry comp0 count format
        (some bad :: rest)
      = HardReadOut.ret ReadResult.eavail bad ∧
    (∀ (count2 : Nat) (polls2 : List (Option UsdCompletion)),
      usdf_cq_read_common hdrSize hdrBufEntry bad count2 format polls2
        = HardReadOut.ret ReadResult.eavail bad) ∧
    usdf_cq_sread_common hdrSize hdrBufEntry initQ baseQ maxQ format
        timeout_ms comp0 count (goods.map some ++ some bad :: rest)
      = ⟨SreadOutcome.ret
          (ReadResult.entries
            (goods.map (copyCqEntryD hdrSize hdrBufEntry format))),
         bad, []⟩ ∧
    usdf_cq_sread_common hdrSize hdrBufEntry initQ baseQ maxQ format
        timeout_ms comp0 count (some bad :: rest)
      = ⟨SreadOutcome.ret ReadResult.eavail, bad, []⟩ ∧
    usdf_cq_read_common_soft id
        ⟨comp0, pushList (freshRing C) (gs ++ [bp])⟩ count format
      = (ReadResult.entries
           (gs.map fun x => copyEntryD format (mkSoftEntry x)),
         ⟨comp0,
          ⟨gs.map mkSoftEntry ++ mkSoftEntry bp ::
             List.replicate (C - (gs.length + 1)) ⟨0, 0, 0, 0, 0, 0⟩,
           (gs.length + 1) % C, gs.length, SoftCqOp.read⟩⟩) ∧
    usdf_cq_read_common_soft id
        ⟨comp0,
         ⟨gs.map mkSoftEntry ++ mkSoftEntry bp ::
            List.replicate (C - (gs.length + 1)) ⟨0, 0, 0, 0, 0, 0⟩,
          (gs.length + 1) % C, gs.length, SoftCqOp.read⟩⟩ count format
      = (ReadResult.eavail,
         ⟨comp0,
          ⟨gs.map mkSoftEntry ++ mkSoftEntry bp ::
             List.replicate (C - (gs.length + 1)) ⟨0, 0, 0, 0, 0, 0⟩,
           (gs.length + 1) % C, gs.length, SoftCqOp.read⟩⟩) ∧
    usdf_cq_sread_common_soft initQ baseQ maxQ format timeout_ms count
        ⟨comp0, pushList (freshRing C) (gs ++ [bp])⟩ [id]
      = (SreadOutcome.ret
           (ReadResult.entries
             (gs.map fun x => copyEntryD format (mkSoftEntry x))),
         ⟨comp0,
          ⟨gs.map mkSoftEntry ++ mkSoftEntry bp ::
             List.replicate (C - (gs.length + 1)) ⟨0, 0, 0, 0, 0, 0⟩,
           (gs.length + 1) % C, gs.length, SoftCqOp.read⟩⟩, []) := by
  have hmapsne : ¬(goods.map (copyCqEntryD hdrSize hdrBufEntry format)
      = []) := by
    simp [hgne]
  have hKpos : 0 < gs.length := List.length_pos.mpr hgsne
  have hKne : gs.length ≠ 0 := by omega
  -- the pushed ring state
  have hpush : pushList (freshRing C) (gs ++ [bp]) =
      ⟨gs.map mkSoftEntry ++ mkSoftEntry bp ::
         List.replicate (C - (gs.length + 1)) ⟨0, 0, 0, 0, 0, 0⟩,
       (gs.length + 1) % C, 0, SoftCqOp.write⟩ := by
    rw [pushList_fill C (by omega) (gs ++ [bp]) (by simp; omega)]
    simp [List.map_append]
  have hcnt : count = gs.length + ((count - gs.length - 1) + 1) := by
    omega
  have hdrain := softDrainLoop_hits_error format hfmt gs bp C
    (count - gs.length - 1) hC hsucc hbp
  rw [if_neg hKne] at hdrain
  have hrecsne : ¬(gs.map (fun x => copyEntryD format (mkSoftEntry x))
      = []) := by simp [hgsne]
  have hhead : (gs.length + 1) % C = gs.length + 1 ∨
      ((gs.length + 1) % C = 0 ∧ gs.length + 1 = C) := by
    rcases Nat.lt_or_ge (gs.length + 1) C with h1 | h1
    · exact Or.inl (Nat.mod_eq_of_lt h1)
    · have : gs.length + 1 = C := by omega
      exact Or.inr ⟨by rw [this, Nat.mod_self], this⟩
  have htne : ¬(gs.length = (gs.length + 1) % C ∧
      SoftCqOp.read = SoftCqOp.read) := by
    intro hcon
    rcases hhead with h1 | ⟨h1, h2⟩ <;> omega
  have hgetbad : (gs.map mkSoftEntry ++ mkSoftEntry bp ::
      List.replicate (C - (gs.length + 1))
        (⟨0, 0, 0, 0, 0, 0⟩ : SoftEntry)).getD gs.length default
      = mkSoftEntry bp := by
    rw [List.getD_append_right _ _ _ _ (by simp)]
    simp
  obtain ⟨c2, hc2⟩ : ∃ c2, count = c2 + 1 := ⟨count - 1, by omega⟩
  refine ⟨?_, ?_, ?_, ?_, ?_, ?_, ?_, ?_⟩
  · rcases hfmt with h | h | h <;> subst h <;>
      (rw [usdf_cq_read_common, if_neg (by simp [hcomp])]
       rw [readHardLoop_goods hdrSize hdrBufEntry _ (by simp) goods []
         count comp0 bad rest hgood hbad hgcnt]
       simp [hmapsne])
  · rcases hfmt with h | h | h <;> subst h <;>
      (rw [usdf_cq_read_common, if_neg (by simp [hcomp])]
       conv_lhs => rw [show (some bad :: rest : List (Option UsdCompletion))
         = List.map some [] ++ some bad :: rest from rfl]
       rw [readHardLoop_goods hdrSize hdrBufEntry _ (by simp) [] []
         count comp0 bad rest (by simp) hbad
         (by simp only [List.length_nil]; omega)]
       simp)
  · intro count2 polls2
    rcases hfmt with h | h | h <;> subst h <;>
      rw [usdf_cq_read_common, if_pos hbad]
  · rcases hfmt with h | h | h <;> subst h <;>
      (rw [usdf_cq_sread_common, if_neg (by simp [hcomp])]
       rw [sreadHardLoop_goods hdrSize hdrBufEntry baseQ maxQ _
         timeout_ms (by simp) goods [] count comp0 bad rest 0 initQ []
         hgood hbad hgcnt]
       simp [hmapsne])
  · rcases hfmt with h | h | h <;> subst h <;>
      (rw [usdf_cq_sread_common, if_neg (by simp [hcomp])]
       conv_lhs => rw [show (some bad :: rest : List (Option UsdCompletion))
         = List.map some [] ++ some bad :: rest from rfl]
       rw [sreadHardLoop_goods hdrSize hdrBufEntry baseQ maxQ _
         timeout_ms (by simp) [] [] count comp0 bad rest 0 initQ []
         (by simp) hbad (by simp only [List.length_nil]; omega)]
       simp)
  · rw [hpush]
    rcases hfmt with h | h | h <;> subst h <;>
      (rw [usdf_cq_read_common_soft, if_neg (by simp [hcomp])]
       simp only [id_eq]
       conv_lhs => rw [hcnt]
       rw [hdrain]
       simp only [if_neg hrecsne])
  · rcases hfmt with h | h | h <;> subst h <;>
      (rw [usdf_cq_read_common_soft, if_neg (by simp [hcomp])]
       simp only [id_eq]
       conv_lhs => rw [hc2]
       rw [softDrainLoop_error_first _ _ _ _ _ _ _ htne
         (by rw [hgetbad]; simp [mkSoftEntry]; omega)]
       simp only [eq_self_iff_true, if_true])
  · rw [hpush]
    rcases hfmt with h | h | h <;> subst h <;>
      (rw [usdf_cq_sread_common_soft, usdf_cq_sread_soft_loop]
       simp only [id_eq]
       conv_lhs => rw [hcnt]
       rw [hdrain]
       simp only [if_neg hrecsne])

/-- Witness for C4: one good completion then a CRC-error completion, in
both hard mode (poll trace) and soft mode (ring of capacity 3),
context format, count 2. -/
theorem C4_partial_batch_before_error_witness :
    usdf_cq_read_common 42 64 ⟨0, 0, CompStatus.success, CompType.send,
        false⟩ 2 CqFormat.context
        (([⟨1, 10, CompStatus.success, CompType.send, false⟩] :
           List UsdCompletion).map some ++
         some ⟨9, 3, CompStatus.errCrc, CompType.recv, false⟩ :: [])
      = HardReadOut.ret
          (ReadResult.entries
            (([⟨1, 10, CompStatus.success, CompType.send, false⟩] :
               List UsdCompletion).map
              (copyCqEntryD 42 64 CqFormat.context)))
          ⟨9, 3, CompStatus.errCrc, CompType.recv, false⟩ ∧
    usdf_cq_read_common 42 64 ⟨0, 0, CompStatus.success, CompType.send,
        false⟩ 2 CqFormat.context
        (some ⟨9, 3, CompStatus.errCrc, CompType.recv, false⟩ :: [])
      = HardReadOut.ret ReadResult.eavail
          ⟨9, 3, CompStatus.errCrc, CompType.recv, false⟩ ∧
    (∀ (count2 : Nat) (polls2 : List (Option UsdCompletion)),
      usdf_cq_read_common 42 64
          ⟨9, 3, CompStatus.errCrc, CompType.recv, false⟩ count2
          CqFormat.context polls2
        = HardReadOut.ret ReadResult.eavail
            ⟨9, 3, CompStatus.errCrc, CompType.recv, false⟩) ∧
    usdf_cq_sread_common 42 64 1 2 5000 CqFormat.context 10
        ⟨0, 0, CompStatus.success, CompType.send, false⟩ 2
        (([⟨1, 10, CompStatus.success, CompType.send, false⟩] :
           List UsdCompletion).map some ++
         some ⟨9, 3, CompStatus.errCrc, CompType.recv, false⟩ :: [])
      = ⟨SreadOutcome.ret
          (ReadResult.entries
            (([⟨1, 10, CompStatus.success, CompType.send, false⟩] :
               List UsdCompletion).map
              (copyCqEntryD 42 64 CqFormat.context))),
         ⟨9, 3, CompStatus.errCrc, CompType.recv, false⟩, []⟩ ∧
    usdf_cq_sread_common 42 64 1 2 5000 CqFormat.context 10
        ⟨0, 0, CompStatus.success, CompType.send, false⟩ 2
        (some ⟨9, 3, CompStatus.errCrc, CompType.recv, false⟩ :: [])
      = ⟨SreadOutcome.ret ReadResult.eavail,
         ⟨9, 3, CompStatus.errCrc, CompType.recv, false⟩, []⟩ ∧
    usdf_cq_read_common_soft id
        ⟨⟨0, 0, CompStatus.success, CompType.send, false⟩,
         pushList (freshRing 3) ([(5, 50, 0)] ++ [(6, 60, 7)])⟩ 2
        CqFormat.context
      = (ReadResult.entries
           (([(5, 50, 0)] : List (Nat × Nat × Int)).map fun x =>
             copyEntryD CqFormat.context (mkSoftEntry x)),
         ⟨⟨0, 0, CompStatus.success, CompType.send, false⟩,
          ⟨([(5, 50, 0)] : List (Nat × Nat × Int)).map mkSoftEntry ++
             mkSoftEntry (6, 60, 7) ::
               List.replicate
                 (3 - (([(5, 50, 0)] : List (Nat × Nat × Int)).length + 1))
                 ⟨0, 0, 0, 0, 0, 0⟩,
           (([(5, 50, 0)] : List (Nat × Nat × Int)).length + 1) % 3,
           ([(5, 50, 0)] : List (Nat × Nat × Int)).length,
           SoftCqOp.read⟩⟩) ∧
    usdf_cq_read_common_soft id
        ⟨⟨0, 0, CompStatus.success, CompType.send, false⟩,
         ⟨([(5, 50, 0)] : List (Nat × Nat × Int)).map mkSoftEntry ++
            mkSoftEntry (6, 60, 7) ::
              List.replicate
                (3 - (([(5, 50, 0)] : List (Nat × Nat × Int)).length + 1))
                ⟨0, 0, 0, 0, 0, 0⟩,
          (([(5, 50, 0)] : List (Nat × Nat × Int)).length + 1) % 3,
          ([(5, 50, 0)] : List (Nat × Nat × Int)).length,
          SoftCqOp.read⟩⟩ 2 CqFormat.context
      = (ReadResult.eavail,
         ⟨⟨0, 0, CompStatus.success, CompType.send, false⟩,
          ⟨([(5, 50, 0)] : List (Nat × Nat × Int)).map mkSoftEntry ++
             mkSoftEntry (6, 60, 7) ::
               List.replicate
                 (3 - (([(5, 50, 0)] : List (Nat × Nat × Int)).length + 1))
                 ⟨0, 0, 0, 0, 0, 0⟩,
           (([(5, 50, 0)] : List (Nat × Nat × Int)).length + 1) % 3,
           ([(5, 50, 0)] : List (Nat × Nat × Int)).length,
           SoftCqOp.read⟩⟩) ∧
    usdf_cq_sread_common_soft 1 2 5000 CqFormat.context 10 2
        ⟨⟨0, 0, CompStatus.success, CompType.send, false⟩,
         pushList (freshRing 3) ([(5, 50, 0)] ++ [(6, 60, 7)])⟩ [id]
      = (SreadOutcome.ret
           (ReadResult.entries
             (([(5, 50, 0)] : List (Nat × Nat × Int)).map fun x =>
               copyEntryD CqFormat.context (mkSoftEntry x))),
         ⟨⟨0, 0, CompStatus.success, CompType.send, false⟩,
          ⟨([(5, 50, 0)] : List (Nat × Nat × Int)).map mkSoftEntry ++
             mkSoftEntry (6, 60, 7) ::
               List.replicate
                 (3 - (([(5, 50, 0)] : List (Nat × Nat × Int)).length + 1))
                 ⟨0, 0, 0, 0, 0, 0⟩,
           (([(5, 50, 0)] : List (Nat × Nat × Int)).length + 1) % 3,
           ([(5, 50, 0)] : List (Nat × Nat × Int)).length,
           SoftCqOp.read⟩⟩, []) :=
  C4_partial_batch_before_error 42 64 1 2 5000 10 CqFormat.context
    ⟨0, 0, CompStatus.success, CompType.send, false⟩
    ⟨9, 3, CompStatus.errCrc, CompType.recv, false⟩
    [⟨1, 10, CompStatus.success, CompType.send, false⟩] []
    [(5, 50, 0)] (6, 60, 7) 3 2
    (Or.inl rfl) (by decide) (by decide) (by decide) (by decide)
    (by decide) (by decide) (by decide) (by decide) (by decide)
    (by decide)

theorem softDrainLoop_empty (format : CqFormat) (s : SoftCqState)
    (t r : Nat) (h1 : t = s.head) (h2 : s.last_op = SoftCqOp.read) :
    softDrainLoop format s t r = ⟨[], t, s.last_op, SoftDrainStop.done⟩ := by
  cases r <;> simp [softDrainLoop, h1, h2]

theorem sleepQuantum_le_max (initQ baseQ maxQ : Nat)
    (h : initQ ≤ maxQ) : ∀ k, sleepQuantum initQ baseQ maxQ k ≤ maxQ := by
  intro k
  cases k with
  | zero => exact h
  | succ j => exact Nat.min_le_right _ _

theorem sreadHardLoop_no_eagain (hdrSize hdrBufEntry baseQ maxQ : Nat)
    (format : CqFormat) (timeout_ms : Int) (hT : timeout_ms < 0) :
    ∀ (polls : List (Option UsdCompletion)) (remaining : Nat)
      (collected : List CqOutEntry) (comp0 : UsdCompletion)
      (time_spent sleep_q : Nat) (sleeps : List Nat),
      (remaining = 0 → collected ≠ []) →
      (sreadHardLoop hdrSize hdrBufEntry baseQ maxQ format timeout_ms
          comp0 collected remaining time_spent sleep_q sleeps polls).out
        ≠ SreadOutcome.ret ReadResult.eagain := by
  intro polls
  induction polls with
  | nil =>
    intro remaining collected comp0 time_spent sleep_q sleeps hrc
    cases remaining with
    | zero => simp [sreadHardLoop, hrc rfl]
    | succ r => simp [sreadHardLoop]
  | cons p rest ih =>
    intro remaining collected comp0 time_spent sleep_q sleeps hrc
    cases remaining with
    | zero => simp [sreadHardLoop, hrc rfl]
    | succ r =>
      cases p with
      | none =>
        by_cases hc : collected = []
        · simp only [sreadHardLoop, if_pos hc]
          rw [if_neg (by intro hcon; omega)]
          exact ih (r + 1) collected comp0 _ _ _
            (fun h0 => absurd h0 (by omega))
        · simp [sreadHardLoop, hc]
      | some comp =>
        by_cases hs : comp.uc_status ≠ CompStatus.success
        · by_cases hc : collected = [] <;>
            simp [sreadHardLoop, hs, hc]
        · simp only [sreadHardLoop, if_neg hs]
          cases hcopy : usdf_cq_copy_cq_entry hdrSize hdrBufEntry comp
            format with
          | none => simp
          | some rec =>
              exact ih r (collected ++ [rec]) comp _ _ _
                (fun _ => by simp)

theorem sreadSoftLoop_no_eagain (baseQ maxQ : Nat) (format : CqFormat)
    (timeout_ms : Int) (hT : timeout_ms < 0) (count : Nat) :
    ∀ (sweeps : List (SoftCqState → SoftCqState)) (cq : SoftCq)
      (time_spent sleep_q : Nat) (sleeps : List Nat),
      (usdf_cq_sread_soft_loop baseQ maxQ format timeout_ms count cq
          time_spent sleep_q sleeps sweeps).1
        ≠ SreadOutcome.ret ReadResult.eagain := by
  intro sweeps
  induction sweeps with
  | nil =>
    intro cq time_spent sleep_q sleeps
    simp [usdf_cq_sread_soft_loop]
  | cons f fs ih =>
    intro cq time_spent sleep_q sleeps
    simp only [usdf_cq_sread_soft_loop]
    cases hstop : (softDrainLoop format (f cq.ring) (f cq.ring).tail
        count).stop with
    | copyFail => simp [hstop]
    | errorHit =>
        by_cases hr : (softDrainLoop format (f cq.ring) (f cq.ring).tail
            count).recs = [] <;> simp [hstop, hr]
    | done =>
        by_cases hr : (softDrainLoop format (f cq.ring) (f cq.ring).tail
            count).recs = []
        · simp only [hstop, hr]
          rw [if_true, if_neg (fun hcon => absurd hcon.1 (by omega))]
          exact ih _ _ _ _
        · simp [hstop, hr]

theorem sreadHardLoop_sleeps_qseq (hdrSize hdrBufEntry initQ baseQ
    maxQ : Nat) (format : CqFormat) (timeout_ms : Int) :
    ∀ (polls : List (Option UsdCompletion)) (remaining : Nat)
      (collected : List CqOutEntry) (comp0 : UsdCompletion)
      (time_spent k : Nat),
      ∃ n, (sreadHardLoop hdrSize hdrBufEntry baseQ maxQ format
          timeout_ms comp0 collected remaining time_spent
          (sleepQuantum initQ baseQ maxQ k)
          ((List.range k).map (sleepQuantum initQ baseQ maxQ))
          polls).sleeps
        = (List.range n).map (sleepQuantum initQ baseQ maxQ) := by
  intro polls
  induction polls with
  | nil =>
    intro remaining collected comp0 time_spent k
    cases remaining <;> exact ⟨k, by simp [sreadHardLoop]⟩
  | cons p rest ih =>
    intro remaining collected comp0 time_spent k
    cases remaining with
    | zero => exact ⟨k, by simp [sreadHardLoop]⟩
    | succ r =>
      cases p with
      | none =>
        by_cases hc : collected = []
        · by_cases ht : 0 ≤ timeout_ms ∧
              1000 * timeout_ms ≤ (time_spent : Int)
          · exact ⟨k, by simp [sreadHardLoop, hc, ht]⟩
          · have hq : min (if sleepQuantum initQ baseQ maxQ k < maxQ then
                sleepQuantum initQ baseQ maxQ k * baseQ
              else sleepQuantum initQ baseQ maxQ k) maxQ
                = sleepQuantum initQ baseQ maxQ (k + 1) := rfl
            have hacc : (List.range k).map
                  (sleepQuantum initQ baseQ maxQ) ++
                  [sleepQuantum initQ baseQ maxQ k]
                = (List.range (k + 1)).map
                    (sleepQuantum initQ baseQ maxQ) := by
              rw [List.range_succ, List.map_append, List.map_cons,
                List.map_nil]
            have := ih (r + 1) collected comp0
              (time_spent + sleepQuantum initQ baseQ maxQ k) (k + 1)
            rw [← hq, ← hacc] at this
            simpa [sreadHardLoop, hc, ht] using this
        · exact ⟨k, by simp [sreadHardLoop, hc]⟩
      | some comp =>
        by_cases hs : comp.uc_status ≠ CompStatus.success
        · exact ⟨k, by simp [sreadHardLoop, hs]⟩
        · cases hcopy : usdf_cq_copy_cq_entry hdrSize hdrBufEntry comp
              format with
          | none => exact ⟨k, by simp [sreadHardLoop, hs, hcopy]⟩
          | some rec =>
              have := ih r (collected ++ [rec]) comp time_spent k
              simpa [sreadHardLoop, hs, hcopy] using this

theorem sreadSoftLoop_sleeps_qseq (initQ baseQ maxQ : Nat)
    (format : CqFormat) (timeout_ms : Int) (count : Nat) :
    ∀ (sweeps : List (SoftCqState → SoftCqState)) (cq : SoftCq)
      (time_spent k : Nat),
      ∃ n, (usdf_cq_sread_soft_loop baseQ maxQ format timeout_ms count
          cq time_spent (sleepQuantum initQ baseQ maxQ k)
          ((List.range k).map (sleepQuantum initQ baseQ maxQ))
          sweeps).2.2
        = (List.range n).map (sleepQuantum initQ baseQ maxQ) := by
  intro sweeps
  induction sweeps with
  | nil =>
    intro cq time_spent k
    exact ⟨k, by simp [usdf_cq_sread_soft_loop]⟩
  | cons f fs ih =>
    intro cq time_spent k
    simp only [usdf_cq_sread_soft_loop]
    cases hstop : (softDrainLoop format (f cq.ring) (f cq.ring).tail
        count).stop with
    | copyFail => exact ⟨k, by simp [hstop]⟩
    | errorHit =>
        by_cases hr : (softDrainLoop format (f cq.ring) (f cq.ring).tail
            count).recs = [] <;> exact ⟨k, by simp [hstop, hr]⟩
    | done =>
        by_cases hr : (softDrainLoop format (f cq.ring) (f cq.ring).tail
            count).recs = []
        · by_cases ht : 0 ≤ timeout_ms ∧
              1000 * timeout_ms ≤ (time_spent : Int)
          · exact ⟨k, by simp [hstop, hr, ht]⟩
          · have hq : min (if sleepQuantum initQ baseQ maxQ k < maxQ then
                sleepQuantum initQ baseQ maxQ k * baseQ
              else sleepQuantum initQ baseQ maxQ k) maxQ
                = sleepQuantum initQ baseQ maxQ (k + 1) := rfl
            have hacc : (List.range k).map
                  (sleepQuantum initQ baseQ maxQ) ++
                  [sleepQuantum initQ baseQ maxQ k]
                = (List.range (k + 1)).map
                    (sleepQuantum initQ baseQ maxQ) := by
              rw [List.range_succ, List.map_append, List.map_cons,
                List.map_nil]
            have hrec := ih ⟨cq.cq_comp, f cq.ring⟩
              (time_spent + sleepQuantum initQ baseQ maxQ k) (k + 1)
            rw [← hq, ← hacc] at hrec
            simpa [hstop, hr, ht] using hrec
        · exact ⟨k, by simp [hstop, hr]⟩

theorem sreadHardLoop_sleeps_frozen (hdrSize hdrBufEntry baseQ
    maxQ : Nat) (format : CqFormat) (timeout_ms : Int) :
    ∀ (polls : List (Option UsdCompletion)) (remaining : Nat)
      (collected : List CqOutEntry) (comp0 : UsdCompletion)
      (time_spent sleep_q : Nat) (sleeps : List Nat),
      collected ≠ [] →
      (sreadHardLoop hdrSize hdrBufEntry baseQ maxQ format timeout_ms
          comp0 collected remaining time_spent sleep_q sleeps
          polls).sleeps = sleeps := by
  intro polls
  induction polls with
  | nil =>
    intro remaining collected comp0 time_spent sleep_q sleeps _
    cases remaining <;> simp [sreadHardLoop]
  | cons p rest ih =>
    intro remaining collected comp0 time_spent sleep_q sleeps hc
    cases remaining with
    | zero => simp [sreadHardLoop]
    | succ r =>
      cases p with
      | none => simp [sreadHardLoop, hc]
      | some comp =>
        by_cases hs : comp.uc_status ≠ CompStatus.success
        · simp [sreadHardLoop, hs]
        · cases hcopy : usdf_cq_copy_cq_entry hdrSize hdrBufEntry comp
              format with
          | none => simp [sreadHardLoop, hs, hcopy]
          | some rec =>
              have := ih r (collected ++ [rec]) comp time_spent sleep_q
                sleeps (by simp)
              simpa [sreadHardLoop, hs, hcopy] using this

theorem sreadHardLoop_sleeps_le_leading_empty (hdrSize hdrBufEntry baseQ
    maxQ : Nat) (format : CqFormat) (timeout_ms : Int) :
    ∀ (polls : List (Option UsdCompletion)) (remaining : Nat)
      (collected : List CqOutEntry) (comp0 : UsdCompletion)
      (time_spent sleep_q : Nat) (sleeps : List Nat),
      (sreadHardLoop hdrSize hdrBufEntry baseQ maxQ format timeout_ms
          comp0 collected remaining time_spent sleep_q sleeps
          polls).sleeps.length
        ≤ sleeps.length + (polls.takeWhile Option.isNone).length := by
  intro polls
  induction polls with
  | nil =>
    intro remaining collected comp0 time_spent sleep_q sleeps
    cases remaining <;> simp [sreadHardLoop]
  | cons p rest ih =>
    intro remaining collected comp0 time_spent sleep_q sleeps
    cases remaining with
    | zero => simp [sreadHardLoop]
    | succ r =>
      cases p with
      | none =>
        by_cases hc : collected = []
        · by_cases ht : 0 ≤ timeout_ms ∧
              1000 * timeout_ms ≤ (time_spent : Int)
          · simp [sreadHardLoop, hc, ht]
          · have := ih (r + 1) collected comp0
              (time_spent + sleep_q)
              (min (if sleep_q < maxQ then sleep_q * baseQ else sleep_q)
                maxQ) (sleeps ++ [sleep_q])
            simp only [List.length_append, List.length_cons,
              List.length_nil] at this
            simp only [sreadHardLoop, if_pos hc, if_neg ht]
            calc (sreadHardLoop hdrSize hdrBufEntry baseQ maxQ format
                timeout_ms comp0 collected (r + 1)
                (time_spent + sleep_q)
                (min (if sleep_q < maxQ then sleep_q * baseQ
                  else sleep_q) maxQ) (sleeps ++ [sleep_q])
                rest).sleeps.length
                ≤ sleeps.length + 1 + (rest.takeWhile
                    Option.isNone).length := by
                  simpa using this
              _ ≤ sleeps.length + (((none : Option UsdCompletion) ::
                    rest).takeWhile Option.isNone).length := by
                  simp [List.takeWhile_cons]
                  omega
        · simp [sreadHardLoop, hc]
      | some comp =>
        by_cases hs : comp.uc_status ≠ CompStatus.success
        · simp [sreadHardLoop, hs]
        · cases hcopy : usdf_cq_copy_cq_entry hdrSize hdrBufEntry comp
              format with
          | none => simp [sreadHardLoop, hs, hcopy]
          | some rec =>
              have hfr := sreadHardLoop_sleeps_frozen hdrSize hdrBufEntry
                baseQ maxQ format timeout_ms rest r (collected ++ [rec])
                comp time_spent sleep_q sleeps (by simp)
              simp [sreadHardLoop, hs, hcopy, hfr]

theorem sreadSoftLoop_first_sweep_ends (baseQ maxQ : Nat)
    (format : CqFormat) (timeout_ms : Int) (count : Nat) (cq : SoftCq)
    (g : SoftCqState → SoftCqState) (gs : List (SoftCqState → SoftCqState))
    (time_spent sleep_q : Nat) (sleeps : List Nat)
    (hdata : (softDrainLoop format (g cq.ring) (g cq.ring).tail
        count).recs ≠ [] ∨
      (softDrainLoop format (g cq.ring) (g cq.ring).tail count).stop
        = SoftDrainStop.errorHit) :
    (usdf_cq_sread_soft_loop baseQ maxQ format timeout_ms count cq
        time_spent sleep_q sleeps (g :: gs)).2.2 = sleeps := by
  rw [usdf_cq_sread_soft_loop]
  cases hstop : (softDrainLoop format (g cq.ring) (g cq.ring).tail
      count).stop with
  | copyFail => simp [hstop]
  | errorHit =>
      by_cases hr : (softDrainLoop format (g cq.ring) (g cq.ring).tail
          count).recs = [] <;> simp [hstop, hr]
  | done =>
      have hr : ¬((softDrainLoop format (g cq.ring) (g cq.ring).tail
          count).recs = []) := by
        rcases hdata with hd | hd
        · exact hd
        · rw [hstop] at hd
          cases hd
      simp [hstop, hr]

/-- C8 counterexample: a hard-mode blocking read with `count = 0` and a
negative timeout returns TryAgain immediately (the buffer-full exit with
nothing collected falls through to `return -FI_EAGAIN`), contradicting
the claim that a negative timeout means the call never returns
TryAgain. -/
theorem C8_zero_count_negative_timeout_returns_eagain :
    usdf_cq_sread_common 42 64 1 2 5000 CqFormat.context (-1)
        ⟨0, 0, CompStatus.success, CompType.send, false⟩ 0 []
      = ⟨SreadOutcome.ret ReadResult.eagain,
         ⟨0, 0, CompStatus.success, CompType.send, false⟩, []⟩ ∧
    (-1 : Int) < 0 := by
  decide

/-- C8 (amended): for blocking reads, (i) `timeout_ms = 0` with no data
available returns TryAgain without sleeping (hard mode: first poll
empty; soft mode: ring still empty after the progress sweep); (ii) a
negative timeout never returns TryAgain — except a hard-mode call with
`count = 0`, which returns TryAgain immediately; (iii) the `k`-th sleep
equals the quantum recurrence value (initial quantum, multiplied by the
exponential base after each empty attempt, clamped to the maximum) and,
when the initial quantum is at most the maximum, no sleep exceeds the
maximum; (iv) a produced entry or observed error ends the wait: sleeps
happen only during the leading empty polls (hard), and a sweep that
makes data or an error available at the ring tail ends the call with no
sleep (soft). -/
theorem C8_backoff_poller_amended (hdrSize hdrBufEntry initQ baseQ maxQ
    count : Nat) (format : CqFormat) (comp0 : UsdCompletion)
    (cq : SoftCq) (T timeout_neg : Int)
    (rest polls : List (Option UsdCompletion))
    (f g : SoftCqState → SoftCqState)
    (fs gs sweeps : List (SoftCqState → SoftCqState))
    (hfmt : format = CqFormat.context ∨ format = CqFormat.msg ∨
      format = CqFormat.data)
    (hcomp : comp0.uc_status = CompStatus.success)
    (hTneg : timeout_neg < 0) (hinit : initQ ≤ maxQ)
    (hempty : (f cq.ring).tail = (f cq.ring).head ∧
      (f cq.ring).last_op = SoftCqOp.read)
    (hcount : 1 ≤ count)
    (hdata : (softDrainLoop format (g cq.ring) (g cq.ring).tail
        count).recs ≠ [] ∨
      (softDrainLoop format (g cq.ring) (g cq.ring).tail count).stop
        = SoftDrainStop.errorHit) :
    usdf_cq_sread_common hdrSize hdrBufEntry initQ baseQ maxQ format 0
        comp0 count (none :: rest)
      = ⟨SreadOutcome.ret ReadResult.eagain, comp0, []⟩ ∧
    usdf_cq_sread_common_soft initQ baseQ maxQ format 0 count cq
        (f :: fs)
      = (SreadOutcome.ret ReadResult.eagain,
         ⟨cq.cq_comp, f cq.ring⟩, []) ∧
    (usdf_cq_sread_common hdrSize hdrBufEntry initQ baseQ maxQ format
        timeout_neg comp0 count polls).out
      ≠ SreadOutcome.ret ReadResult.eagain ∧
    (usdf_cq_sread_common_soft initQ baseQ maxQ format timeout_neg
        count cq sweeps).1
      ≠ SreadOutcome.ret ReadResult.eagain ∧
    (∃ n, (usdf_cq_sread_common hdrSize hdrBufEntry initQ baseQ maxQ
        format T comp0 count polls).sleeps
      = (List.range n).map (sleepQuantum initQ baseQ maxQ)) ∧
    (∀ x ∈ (usdf_cq_sread_common hdrSize hdrBufEntry initQ baseQ maxQ
        format T comp0 count polls).sleeps, x ≤ maxQ) ∧
    (∃ n, (usdf_cq_sread_common_soft initQ baseQ maxQ format T count cq
        sweeps).2.2
      = (List.range n).map (sleepQuantum initQ baseQ maxQ)) ∧
    (∀ x ∈ (usdf_cq_sread_common_soft initQ baseQ maxQ format T count
        cq sweeps).2.2, x ≤ maxQ) ∧
    (usdf_cq_sread_common hdrSize hdrBufEntry initQ baseQ maxQ format T
        comp0 count polls).sleeps.length
      ≤ (polls.takeWhile Option.isNone).length ∧
    (usdf_cq_sread_common_soft initQ baseQ maxQ format T count cq
        (g :: gs)).2.2 = [] := by
  obtain ⟨c, rfl⟩ : ∃ c, count = c + 1 := ⟨count - 1, by omega⟩
  refine ⟨?_, ?_, ?_, ?_, ?_, ?_, ?_, ?_, ?_, ?_⟩
  · rcases hfmt with h | h | h <;> subst h <;>
      (rw [usdf_cq_sread_common, if_neg (by simp [hcomp])]
       simp only [sreadHardLoop]
       rw [if_true, if_pos (by constructor <;> simp)])
  · rcases hfmt with h | h | h <;> subst h <;>
      (rw [usdf_cq_sread_common_soft, usdf_cq_sread_soft_loop,
         softDrainLoop_empty _ _ _ _ hempty.1 hempty.2]
       simp)
  · rcases hfmt with h | h | h <;> subst h <;>
      (rw [usdf_cq_sread_common, if_neg (by simp [hcomp])]
       exact sreadHardLoop_no_eagain hdrSize hdrBufEntry baseQ maxQ _
         timeout_neg hTneg polls (c + 1) [] comp0 0 initQ []
         (fun h0 => absurd h0 (by omega)))
  · rcases hfmt with h | h | h <;> subst h <;>
      (rw [usdf_cq_sread_common_soft]
       exact sreadSoftLoop_no_eagain baseQ maxQ _ timeout_neg hTneg
         (c + 1) sweeps cq 0 initQ [])
  · rcases hfmt with h | h | h <;> subst h <;>
      (rw [usdf_cq_sread_common, if_neg (by simp [hcomp])]
       exact sreadHardLoop_sleeps_qseq hdrSize hdrBufEntry initQ baseQ
         maxQ _ T polls (c + 1) [] comp0 0 0)
  · rcases hfmt with h | h | h <;> subst h <;>
      (rw [usdf_cq_sread_common, if_neg (by simp [hcomp])]
       intro x hx
       obtain ⟨n, hn⟩ := sreadHardLoop_sleeps_qseq hdrSize hdrBufEntry
         initQ baseQ maxQ _ T polls (c + 1) [] comp0 0 0
       rw [show sleepQuantum initQ baseQ maxQ 0 = initQ from rfl,
         show (List.range 0).map (sleepQuantum initQ baseQ maxQ)
           = [] from rfl] at hn
       rw [hn] at hx
       obtain ⟨i, _, rfl⟩ := List.mem_map.mp hx
       exact sleepQuantum_le_max initQ baseQ maxQ hinit i)
  · rcases hfmt with h | h | h <;> subst h <;>
      (rw [usdf_cq_sread_common_soft]
       exact sreadSoftLoop_sleeps_qseq initQ baseQ maxQ _ T (c + 1)
         sweeps cq 0 0)
  · rcases hfmt with h | h | h <;> subst h <;>
      (rw [usdf_cq_sread_common_soft]
       intro x hx
       obtain ⟨n, hn⟩ := sreadSoftLoop_sleeps_qseq initQ baseQ maxQ _ T
         (c + 1) sweeps cq 0 0
       rw [show sleepQuantum initQ baseQ maxQ 0 = initQ from rfl,
         show (List.range 0).map (sleepQuantum initQ baseQ maxQ)
           = [] from rfl] at hn
       rw [hn] at hx
       obtain ⟨i, _, rfl⟩ := List.mem_map.mp hx
       exact sleepQuantum_le_max initQ baseQ maxQ hinit i)
  · rcases hfmt with h | h | h <;> subst h <;>
      (rw [usdf_cq_sread_common, if_neg (by simp [hcomp])]
       refine le_trans (sreadHardLoop_sleeps_le_leading_empty hdrSize
         hdrBufEntry baseQ maxQ _ T polls (c + 1) [] comp0 0 initQ []) ?_
       simp)
  · rcases hfmt with h | h | h <;> subst h <;>
      (rw [usdf_cq_sread_common_soft]
       exact sreadSoftLoop_first_sweep_ends baseQ maxQ _ T (c + 1) cq g
         gs 0 initQ [] hdata)

/-- Witness for the amended C8 at concrete quanta 1/2/5000, count 1. -/
theorem C8_backoff_poller_amended_witness :
    usdf_cq_sread_common 42 64 1 2 5000 CqFormat.context 0
        ⟨0, 0, CompStatus.success, CompType.send, false⟩ 1 (none :: [])
      = ⟨SreadOutcome.ret ReadResult.eagain,
         ⟨0, 0, CompStatus.success, CompType.send, false⟩, []⟩ ∧
    usdf_cq_sread_common_soft 1 2 5000 CqFormat.context 0 1
        ⟨⟨0, 0, CompStatus.success, CompType.send, false⟩, freshRing 2⟩
        (id :: [])
      = (SreadOutcome.ret ReadResult.eagain,
         ⟨⟨0, 0, CompStatus.success, CompType.send, false⟩,
          id (freshRing 2)⟩, []) ∧
    (usdf_cq_sread_common 42 64 1 2 5000 CqFormat.context (-1)
        ⟨0, 0, CompStatus.success, CompType.send, false⟩ 1 [none]).out
      ≠ SreadOutcome.ret ReadResult.eagain ∧
    (usdf_cq_sread_common_soft 1 2 5000 CqFormat.context (-1) 1
        ⟨⟨0, 0, CompStatus.success, CompType.send, false⟩, freshRing 2⟩
        []).1
      ≠ SreadOutcome.ret ReadResult.eagain ∧
    (∃ n, (usdf_cq_sread_common 42 64 1 2 5000 CqFormat.context 3
        ⟨0, 0, CompStatus.success, CompType.send, false⟩ 1
        [none]).sleeps
      = (List.range n).map (sleepQuantum 1 2 5000)) ∧
    (∀ x ∈ (usdf_cq_sread_common 42 64 1 2 5000 CqFormat.context 3
        ⟨0, 0, CompStatus.success, CompType.send, false⟩ 1
        [none]).sleeps, x ≤ 5000) ∧
    (∃ n, (usdf_cq_sread_common_soft 1 2 5000 CqFormat.context 3 1
        ⟨⟨0, 0, CompStatus.success, CompType.send, false⟩, freshRing 2⟩
        []).2.2
      = (List.range n).map (sleepQuantum 1 2 5000)) ∧
    (∀ x ∈ (usdf_cq_sread_common_soft 1 2 5000 CqFormat.context 3 1
        ⟨⟨0, 0, CompStatus.success, CompType.send, false⟩, freshRing 2⟩
        []).2.2, x ≤ 5000) ∧
    (usdf_cq_sread_common 42 64 1 2 5000 CqFormat.context 3
        ⟨0, 0, CompStatus.success, CompType.send, false⟩ 1
        [none]).sleeps.length
      ≤ (([none] : List (Option UsdCompletion)).takeWhile
          Option.isNone).length ∧
    (usdf_cq_sread_common_soft 1 2 5000 CqFormat.context 3 1
        ⟨⟨0, 0, CompStatus.success, CompType.send, false⟩, freshRing 2⟩
        ((fun s => usdf_cq_post_soft s 5 7 0) :: [])).2.2 = [] :=
  C8_backoff_poller_amended 42 64 1 2 5000 1 CqFormat.context
    ⟨0, 0, CompStatus.success, CompType.send, false⟩
    ⟨⟨0, 0, CompStatus.success, CompType.send, false⟩, freshRing 2⟩
    3 (-1) [] [none] id (fun s => usdf_cq_post_soft s 5 7 0) [] [] []
    (Or.inl rfl) (by decide) (by decide) (by decide) (by decide)
    (by decide) (by decide)

/-- C2 (code bug, failing input): promoting a hard-mode context-format
CQ holding hardware-queue handle 7 with a failing ring allocation
returns OutOfMemory but leaves the union in its half-initialized soft
state — the bound hardware-queue handle is lost, not preserved.  By
contrast the binding-allocation failure path restores the handle and
leaves the CQ exactly unchanged, which is what the claim requires of
every allocation failure. -/
theorem C2_ring_alloc_failure_loses_hard_state :
    usdf_cq_make_soft false true
        ⟨CqFormat.context, 4, 0, OpsCq.contextOps, CqUnion.hard (some 7)⟩
      = (MakeSoftRet.enomem,
         ⟨CqFormat.context, 4, 0, OpsCq.contextOps,
          CqUnion.soft ⟨[], none⟩⟩) ∧
    CqUnion.soft ⟨[], none⟩ ≠ CqUnion.hard (some 7) ∧
    usdf_cq_make_soft true false
        ⟨CqFormat.context, 4, 0, OpsCq.contextOps, CqUnion.hard (some 7)⟩
      = (MakeSoftRet.enomem,
         ⟨CqFormat.context, 4, 0, OpsCq.contextOps,
          CqUnion.hard (some 7)⟩) := by
  decide

/-- C9: promotion to soft mode is idempotent — on a CQ that is already
soft (its ops pointer equals the per-format soft table) or whose format
matches no table, `usdf_cq_make_soft` is a no-op returning success,
regardless of what the allocator would do: no second ring is allocated
and no duplicate binding is added. -/
theorem C9_make_soft_idempotent (ringAlloc hcqAlloc : Bool) (cq : UsdfCq)
    (h : usdf_cq_is_soft cq = true ∨ cq.cq_format = CqFormat.unspec ∨
      cq.cq_format = CqFormat.tagged) :
    usdf_cq_make_soft ringAlloc hcqAlloc cq = (MakeSoftRet.ok, cq) := by
  rcases h with h | h | h
  · unfold usdf_cq_is_soft at h
    cases hf : cq.cq_format
    · rw [hf] at h
      simp at h
    · rw [hf] at h
      rw [beq_iff_eq] at h
      simp [usdf_cq_make_soft, hf, h]
    · rw [hf] at h
      rw [beq_iff_eq] at h
      simp [usdf_cq_make_soft, hf, h]
    · rw [hf] at h
      rw [beq_iff_eq] at h
      simp [usdf_cq_make_soft, hf, h]
    · rw [hf] at h
      simp at h
  · simp [usdf_cq_make_soft, h]
  · simp [usdf_cq_make_soft, h]

/-- Witness for C9: an already-soft msg-format CQ. -/
theorem C9_make_soft_idempotent_witness :
    usdf_cq_make_soft true true
        ⟨CqFormat.msg, 4, 0, OpsCq.msgSoftOps,
         CqUnion.soft ⟨[⟨0, some 7⟩], some (freshRing 4)⟩⟩
      = (MakeSoftRet.ok,
         ⟨CqFormat.msg, 4, 0, OpsCq.msgSoftOps,
          CqUnion.soft ⟨[⟨0, some 7⟩], some (freshRing 4)⟩⟩) :=
  C9_make_soft_idempotent true true
    ⟨CqFormat.msg, 4, 0, OpsCq.msgSoftOps,
     CqUnion.soft ⟨[⟨0, some 7⟩], some (freshRing 4)⟩⟩
    (Or.inl (by decide))

/-- C10: an open call whose attributes pass validation with an
unspecified entry format creates the CQ with the context-only format:
`usdf_cq_process_attr` rewrites the attr to the context format before
the operation-table switch, and the created CQ carries the context-only
hard table and the rewritten attr. -/
theorem C10_unspec_format_defaults_to_context (maxCqe : Nat)
    (attr : CqAttr) (hw : attr.wait_obj = WaitObj.waitNone)
    (hs : attr.size ≤ maxCqe) (hf : attr.format = CqFormat.unspec) :
    usdf_cq_open maxCqe true attr
      = Except.ok
          (⟨CqFormat.context,
            (if attr.size = 0 then maxCqe else attr.size), 0,
            OpsCq.contextOps, CqUnion.hard none⟩,
           ⟨(if attr.size = 0 then maxCqe else attr.size),
            CqFormat.context, WaitObj.waitNone⟩) := by
  obtain ⟨sz, fmt, w⟩ := attr
  simp only at hw hs hf
  subst hw hf
  unfold usdf_cq_open usdf_cq_process_attr
  rw [if_neg (by simp)]
  rw [if_neg (by show ¬(maxCqe < sz); omega)]
  by_cases h0 : sz = 0 <;> simp [h0]

/-- Witness for C10 at `maxCqe = 8`, `attr = ⟨0, unspec, none⟩`. -/
theorem C10_unspec_format_defaults_to_context_witness :
    usdf_cq_open 8 true ⟨0, CqFormat.unspec, WaitObj.waitNone⟩
      = Except.ok
          (⟨CqFormat.context, (if (0 : Nat) = 0 then 8 else 0), 0,
            OpsCq.contextOps, CqUnion.hard none⟩,
           ⟨(if (0 : Nat) = 0 then 8 else 0), CqFormat.context,
            WaitObj.waitNone⟩) :=
  C10_unspec_format_defaults_to_context 8
    ⟨0, CqFormat.unspec, WaitObj.waitNone⟩ (by decide) (by decide)
    (by decide)

theorem close_soft_loop_clean (destroy : Nat → Int) :
    ∀ l : List HcqBinding,
      (∀ b ∈ l, b.cqh_refcnt = 0) →
      (∀ b ∈ l, ∀ u, b.cqh_ucq = some u → destroy u = 0) →
      usdf_cq_close_soft_loop destroy l
        = (CloseRet.ok, [], l.filterMap HcqBinding.cqh_ucq) := by
  intro l
  induction l with
  | nil => intro _ _; rfl
  | cons b rest ih =>
    intro h1 h2
    have hb : b.cqh_refcnt = 0 := h1 b (by simp)
    rw [usdf_cq_close_soft_loop, if_neg (by omega)]
    have ihr := ih (fun x hx => h1 x (by simp [hx]))
      (fun x hx u hu => h2 x (by simp [hx]) u hu)
    cases hu : b.cqh_ucq with
    | none => simp [ihr, List.filterMap_cons, hu]
    | some u =>
      have hd : destroy u = 0 := h2 b (by simp) u hu
      simp [hd, ihr, List.filterMap_cons, hu]

theorem close_soft_loop_busy (destroy : Nat → Int) :
    ∀ l : List HcqBinding,
      (∀ b ∈ l, ∀ u, b.cqh_ucq = some u → destroy u = 0) →
      (∃ b ∈ l, 0 < b.cqh_refcnt) →
      (usdf_cq_close_soft_loop destroy l).1 = CloseRet.ebusy := by
  intro l
  induction l with
  | nil =>
    intro _ hex
    obtain ⟨b, hb, _⟩ := hex
    cases hb
  | cons b rest ih =>
    intro h2 hex
    by_cases hb : 0 < b.cqh_refcnt
    · rw [usdf_cq_close_soft_loop, if_pos hb]
    · have hex2 : ∃ x ∈ rest, 0 < x.cqh_refcnt := by
        obtain ⟨x, hx, hxr⟩ := hex
        rcases List.mem_cons.mp hx with rfl | hx2
        · exact absurd hxr hb
        · exact ⟨x, hx2, hxr⟩
      have ihr := ih (fun x hx u hu => h2 x (by simp [hx]) u hu) hex2
      rw [usdf_cq_close_soft_loop, if_neg hb]
      cases hu : b.cqh_ucq with
      | none => exact ihr
      | some u =>
        have hd : destroy u = 0 := h2 b (by simp) u hu
        simp [hd, ihr]

/-- C5: close returns Busy and deallocates nothing while the CQ's own
reference count is nonzero; on a soft-mode CQ it returns Busy (without
freeing the CQ) if some binding still has a nonzero reference count and
otherwise destroys every binding's underlying hardware queue and frees
the CQ; a hardware-queue destroy failure aborts the close, propagates
the error and never frees the CQ; a hard-mode close destroys the single
bound queue on success and propagates its failure without freeing. -/
theorem C5_close_refcounts_and_teardown (destroy : Nat → Int)
    (cq : UsdfCq) (l : List HcqBinding) (ring : Option SoftCqState) :
    (0 < cq.cq_refcnt →
      usdf_cq_close destroy cq = (CloseRet.ebusy, some cq, [])) ∧
    (cq.cq_refcnt = 0 → usdf_cq_is_soft cq = true →
      cq.c = CqUnion.soft ⟨l, ring⟩ →
      (∀ b ∈ l, ∀ u, b.cqh_ucq = some u → destroy u = 0) →
      (∃ b ∈ l, 0 < b.cqh_refcnt) →
      (usdf_cq_close destroy cq).1 = CloseRet.ebusy ∧
      (usdf_cq_close destroy cq).2.1 ≠ none) ∧
    (cq.cq_refcnt = 0 → usdf_cq_is_soft cq = true →
      cq.c = CqUnion.soft ⟨l, ring⟩ →
      (∀ b ∈ l, b.cqh_refcnt = 0) →
      (∀ b ∈ l, ∀ u, b.cqh_ucq = some u → destroy u = 0) →
      usdf_cq_close destroy cq
        = (CloseRet.ok, none, l.filterMap HcqBinding.cqh_ucq)) ∧
    (∀ e, (usdf_cq_close destroy cq).1 = CloseRet.destroyErr e →
      (usdf_cq_close destroy cq).2.1 ≠ none) ∧
    (cq.cq_refcnt = 0 → usdf_cq_is_soft cq = false →
      ∀ u, cq.c = CqUnion.hard (some u) →
        (destroy u = 0 →
          usdf_cq_close destroy cq = (CloseRet.ok, none, [u])) ∧
        (destroy u ≠ 0 →
          usdf_cq_close destroy cq
            = (CloseRet.destroyErr (destroy u), some cq, []))) := by
  refine ⟨?_, ?_, ?_, ?_, ?_⟩
  · intro h1
    simp [usdf_cq_close, h1]
  · intro h1 h2 h3 h4 h5
    have hloop := close_soft_loop_busy destroy l h4 h5
    unfold usdf_cq_close
    rw [if_neg (by omega), if_pos (by rw [h2]), h3]
    simp [softSide, hloop]
  · intro h1 h2 h3 h4 h5
    have hloop := close_soft_loop_clean destroy l h4 h5
    unfold usdf_cq_close
    rw [if_neg (by omega), if_pos (by rw [h2]), h3]
    simp [softSide, hloop]
  · intro e
    unfold usdf_cq_close
    by_cases h1 : 0 < cq.cq_refcnt
    · simp [h1]
    · rw [if_neg h1]
      by_cases h2 : usdf_cq_is_soft cq = true
      · rw [if_pos (by rw [h2])]
        cases hout : (usdf_cq_close_soft_loop destroy
            (softSide cq.c).cq_list).1 <;> simp [hout]
      · rw [if_neg (by simp at h2; simp [h2])]
        cases hh : hardHandle cq.c with
        | none => simp
        | some u =>
            by_cases hd : destroy u ≠ 0
            · simp [hd]
            · simp [hd]
  · intro h1 h2 u h3
    unfold usdf_cq_close
    rw [if_neg (by omega), if_neg (by simp [h2]), h3]
    constructor
    · intro hd
      rw [show hardHandle (CqUnion.hard (some u)) = some u from rfl]
      simp [hd]
    · intro hd
      rw [show hardHandle (CqUnion.hard (some u)) = some u from rfl]
      simp [hd]

/-- Witness for C5: a soft CQ with two idle bindings closes cleanly,
destroying both hardware queues; a CQ with a nonzero reference count
refuses with Busy and deallocates nothing. -/
theorem C5_close_refcounts_and_teardown_witness :
    usdf_cq_close (fun _ => 0)
        ⟨CqFormat.context, 4, 0, OpsCq.contextSoftOps,
         CqUnion.soft ⟨[⟨0, some 3⟩, ⟨0, some 4⟩], some (freshRing 4)⟩⟩
      = (CloseRet.ok, none,
         List.filterMap HcqBinding.cqh_ucq [⟨0, some 3⟩, ⟨0, some 4⟩]) ∧
    usdf_cq_close (fun _ => 0)
        ⟨CqFormat.context, 4, 1, OpsCq.contextOps, CqUnion.hard (some 3)⟩
      = (CloseRet.ebusy,
         some ⟨CqFormat.context, 4, 1, OpsCq.contextOps,
           CqUnion.hard (some 3)⟩, []) :=
  ⟨(C5_close_refcounts_and_teardown (fun _ => 0)
      ⟨CqFormat.context, 4, 0, OpsCq.contextSoftOps,
       CqUnion.soft ⟨[⟨0, some 3⟩, ⟨0, some 4⟩], some (freshRing 4)⟩⟩
      [⟨0, some 3⟩, ⟨0, some 4⟩] (some (freshRing 4))).2.2.1 rfl
      (by decide) rfl (by decide) (fun b hb u hu => rfl),
   (C5_close_refcounts_and_teardown (fun _ => 0)
      ⟨CqFormat.context, 4, 1, OpsCq.contextOps, CqUnion.hard (some 3)⟩
      [] none).1 (by decide)⟩
